import Mathlib

/-!
Verification of the Export Component Metadata plugin backend (`src/code.ts`).

The repository's `src/code.ts` contains two near-duplicate backends; the second
one (starting at the `figma.showUI` around line 492) is the canonical
implementation described by the specification: it is the only one with the
lookup timeout wrapper, preferred-name deduplication, the batch pipeline
(`streamScan` / `streamGenerateAll` / `exportAll*`), and the scan permission
flag.  The definitions below are a shallow embedding of that backend.

Modelling conventions:
- JavaScript strings are modelled as `List Char` (`Str`); `slice(0, 4)` is
  `List.take 4`, `slice(4)` is `List.drop 4`, `indexOf('#')`-based slicing is
  `List.takeWhile`.
- A `ComponentPropertyDefinitions` object is an association list
  `List (Str × RawDef)` in the host's enumeration order (`Object.keys` order);
  JavaScript object keys are distinct, which appears as `Nodup` hypotheses.
- `figma.getNodeByIdAsync` wrapped in `withTimeout` is modelled by an
  environment `NameEnv : Str → Option Str` (`none` covers a missing node, a
  lookup error and a timeout alike).
- `async` functions are pure functions of that environment; message posts are
  collected in an output list.
-/

namespace ExportMeta

/-- JavaScript strings, one `Char` per code point. -/
abbrev Str := List Char

/-- Shorthand to write a `Str` literal. -/
def str (s : String) : Str := s.data

/-- `type PropKind = 'BOOLEAN' | 'TEXT' | 'NUMBER' | 'INSTANCE_SWAP' | 'VARIANT'`. -/
inductive PropKind
  | BOOLEAN
  | TEXT
  | NUMBER
  | INSTANCE_SWAP
  | VARIANT
deriving DecidableEq

/-- A raw `defaultValue : unknown`.  `nullv` is the JavaScript `null`,
`otherv` stands for any other non-string non-boolean non-number value;
an absent (`undefined`) default is `Option.none` at the use sites. -/
inductive DefVal
  | bval (b : Bool)
  | sval (s : Str)
  | nval (n : Int)
  | nullv
  | otherv
deriving DecidableEq

/-- A raw entry of `preferredValues` (`unknown`), as inspected by
`extractNodeIdFromPreferred`: a plain string, an object with optional string
fields `id` / `value` / `nodeId`, or anything else. -/
inductive PrefVal
  | strv (s : Str)
  | objv (id value nodeId : Option Str)
  | otherv
deriving DecidableEq

/-- One entry of a `ComponentPropertyDefinitions` map. -/
structure RawDef where
  type : PropKind
  defaultValue : Option DefVal
  preferredValues : Option (List PrefVal)
  variantOptions : Option (List Str)
deriving DecidableEq

/-- `interface PropDefLite`. -/
structure PropDefLite where
  name : Str
  type : PropKind
  defaultValue : Option DefVal
  preferredValuesCount : Option Nat
  preferredValuesRaw : Option (List PrefVal)
  preferredInstanceNames : Option (List Str)
  variantOptions : Option (List Str)
deriving DecidableEq

/-- `function cleanPropName(key)`: strip everything from the first `'#'` on. -/
def cleanPropName (key : Str) : Str := key.takeWhile (fun c => c ≠ '#')

/-- The items built at the head of the ordering heuristic:
`{ key: k, type: defs[k].type, name: cleanPropName(k) }`. -/
structure Item where
  key : Str
  type : PropKind
  name : Str
deriving DecidableEq

/-- `rawKeys.map((k) => ({ key: k, type: defs[k].type, name: cleanPropName(k) }))`. -/
def mkItems (defs : List (Str × RawDef)) : List Item :=
  defs.map (fun kd => { key := kd.1, type := kd.2.type, name := cleanPropName kd.1 })

/-- The string `"Has "` used by the pairing heuristic. -/
def hasPrefixStr : Str := str "Has "

/-- `it.name.slice(0, 4) === 'Has '`. -/
def isHasName (name : Str) : Bool := name.take 4 = hasPrefixStr

/-- The final lookup of `hasMap` (`baseName -> hasKey`).  The map is populated
by iterating `others` and calling `hasMap.set(it.name.slice(4), it.key)` for
every `"Has "`-prefixed item, so a `get` after construction returns the key of
the *last* such item with the given base name. -/
def hasLookup (all : List Item) (base : Str) : Option Str :=
  ((all.filter (fun it => isHasName it.name && it.name.drop 4 = base)).getLast?).map Item.key

/-- The `for (const it of others)` placement walk.  `all` is the full `others`
list (the domain `hasMap` was built from), the second argument is the remaining
suffix being walked, the third is the `taken` set.  A JavaScript
`if (hasKey && ...)` also rejects the (unreachable) empty-string key, hence the
`hk ≠ []` guard. -/
def orderOthers (all : List Item) : List Item → List Str → List Str
  | [], _taken => []
  | it :: rest, taken =>
    if it.key ∈ taken then orderOthers all rest taken
    else
      match hasLookup all it.name with
      | some hk =>
        if hk ≠ [] ∧ hk ∉ taken then
          hk :: it.key :: orderOthers all rest (it.key :: hk :: taken)
        else
          it.key :: orderOthers all rest (it.key :: taken)
      | none => it.key :: orderOthers all rest (it.key :: taken)

/-- The shared ordering heuristic (identical blocks in
`collectPropsFromComponent` and both branches of
`collectComponentPropsWithOrder`): VARIANT keys first, preserving order, then
the `"Has X"`-pairing walk over the non-VARIANT items. -/
def heuristicKeys (defs : List (Str × RawDef)) : List Str :=
  ((mkItems defs).filter (fun i => i.type = PropKind.VARIANT)).map Item.key ++
    orderOthers ((mkItems defs).filter (fun i => i.type ≠ PropKind.VARIANT))
      ((mkItems defs).filter (fun i => i.type ≠ PropKind.VARIANT)) []

/-- The `PropDefLite` record built for `key` by `collectComponentPropsWithOrder`
(both the set-level branch and the legacy fallback): `variantOptions` is copied
only for VARIANT kinds; a VARIANT default is forced to `undefined`. -/
def buildDefSet (key : Str) (d : RawDef) : PropDefLite :=
  { name := cleanPropName key
    type := d.type
    defaultValue := if d.type = PropKind.VARIANT then none else d.defaultValue
    preferredValuesCount := d.preferredValues.map List.length
    preferredValuesRaw := d.preferredValues
    preferredInstanceNames := none
    variantOptions := if d.type = PropKind.VARIANT then d.variantOptions else none }

/-- The `PropDefLite` record built by `collectPropsFromComponent`: unlike the
set-level collector it copies `variantOptions` for every kind. -/
def buildDefComponent (key : Str) (d : RawDef) : PropDefLite :=
  { name := cleanPropName key
    type := d.type
    defaultValue := if d.type = PropKind.VARIANT then none else d.defaultValue
    preferredValuesCount := d.preferredValues.map List.length
    preferredValuesRaw := d.preferredValues
    preferredInstanceNames := none
    variantOptions := d.variantOptions }

/-- Result shape `{ defs: Record<string, PropDefLite>, order: string[] }`. -/
structure CollectResult where
  defs : List (Str × PropDefLite)
  order : List Str
deriving DecidableEq

/-- The `for (const key of keys)` output-construction loop shared by the two
single-map collectors: `order` is the heuristic key sequence and `out[key]`
is filled from the raw definition of `key`. -/
def collectFromDefs (mk : Str → RawDef → PropDefLite) (defs : List (Str × RawDef)) :
    CollectResult :=
  { defs := (heuristicKeys defs).filterMap
      (fun k => (defs.lookup k).map (fun d => (k, mk k d)))
    order := heuristicKeys defs }

/-- A component node: a name and its (possibly absent) property definitions. -/
structure ComponentModel where
  name : Str
  componentPropertyDefinitions : Option (List (Str × RawDef))
deriving DecidableEq

/-- A child of a component set: a `COMPONENT` node or any other node type. -/
inductive ChildNode
  | component (comp : ComponentModel)
  | otherNode
deriving DecidableEq

/-- A component set node. -/
structure ComponentSetModel where
  name : Str
  componentPropertyDefinitions : Option (List (Str × RawDef))
  children : List ChildNode
deriving DecidableEq

/-- `set.children.filter((n): n is ComponentNode => n.type === 'COMPONENT')`. -/
def childComponents (set : ComponentSetModel) : List ComponentModel :=
  set.children.filterMap (fun c =>
    match c with
    | ChildNode.component comp => some comp
    | ChildNode.otherNode => none)

/-- The mutable state of the legacy fallback loop: the accumulated `out`
record, the `order` array and the `seen` set. -/
structure LegacyState where
  out : List (Str × PropDefLite)
  order : List Str
  seen : List Str
deriving DecidableEq

/-- `if (!seen.has(key)) { seen.add(key); order.push(key); }`. -/
def legacyMark (st : LegacyState) (key : Str) : LegacyState :=
  if key ∈ st.seen then st
  else { st with seen := key :: st.seen, order := st.order ++ [key] }

/-- `if (!out[key]) { out[key] = { ... }; }`. -/
def legacyStore (st : LegacyState) (key : Str) (d : RawDef) : LegacyState :=
  if (st.out.lookup key).isSome then st
  else { st with out := st.out ++ [(key, buildDefSet key d)] }

/-- The body of the fallback's inner `for (const key of keys)` loop: the
`seen`/`order` update followed by the `out` update. -/
def legacyStepKey (member : List (Str × RawDef)) (st : LegacyState) (key : Str) :
    LegacyState :=
  match member.lookup key with
  | none => st
  | some d => legacyStore (legacyMark st key) key d

/-- One iteration of the fallback's `for (const c of comps)` loop: skip a
member without definitions (`if (!defs) continue`), otherwise run the
heuristic on the member's own keys and fold them into the state. -/
def legacyStepMember (st : LegacyState) (memberDefs : Option (List (Str × RawDef))) :
    LegacyState :=
  match memberDefs with
  | none => st
  | some member => (heuristicKeys member).foldl (legacyStepKey member) st

/-- The whole legacy fallback: merge definitions across child components. -/
def legacyMerge (members : List (Option (List (Str × RawDef)))) : CollectResult :=
  let fin := members.foldl legacyStepMember { out := [], order := [], seen := [] }
  { defs := fin.out, order := fin.order }

/-- `function collectComponentPropsWithOrder(set)`. -/
def collectComponentPropsWithOrder (set : ComponentSetModel) : CollectResult :=
  match set.componentPropertyDefinitions with
  | some defsSet => collectFromDefs buildDefSet defsSet
  | none => legacyMerge ((childComponents set).map ComponentModel.componentPropertyDefinitions)

/-- `function collectPropsFromComponent(comp)`. -/
def collectPropsFromComponent (comp : ComponentModel) : CollectResult :=
  match comp.componentPropertyDefinitions with
  | some defs => collectFromDefs buildDefComponent defs
  | none => { defs := [], order := [] }

/-! ### Well-formedness and the key-completeness machinery -/

/-- JavaScript object keys are pairwise distinct. -/
def wellFormedDefs (defs : List (Str × RawDef)) : Prop := (defs.map Prod.fst).Nodup

instance (defs : List (Str × RawDef)) : Decidable (wellFormedDefs defs) :=
  inferInstanceAs (Decidable ((defs.map Prod.fst).Nodup))

/-- The keys of a list of items. -/
def keysOf (l : List Item) : List Str := l.map Item.key

theorem mem_keysOf {l : List Item} {k : Str} :
    k ∈ keysOf l ↔ ∃ it, it ∈ l ∧ it.key = k := by
  simp [keysOf, List.mem_map]

/-- Invariant of the placement walk: every item of `all` whose key has not been
taken yet still lies in the remaining suffix `l`. -/
def WalkInv (all l : List Item) (taken : List Str) : Prop :=
  ∀ it ∈ all, it.key ∉ taken → it ∈ l

@[simp] theorem keysOf_cons {it : Item} {rest : List Item} :
    keysOf (it :: rest) = it.key :: keysOf rest := rfl

theorem walkInv_tail {all : List Item} {it : Item} {rest : List Item} {taken taken' : List Str}
    (hinv : WalkInv all (it :: rest) taken) (hsub : ∀ k ∈ taken, k ∈ taken')
    (hhd : it.key ∈ taken') : WalkInv all rest taken' := by
  intro itm hmem hnt
  have hnt0 : itm.key ∉ taken := fun h => hnt (hsub _ h)
  rcases List.mem_cons.1 (hinv itm hmem hnt0) with rfl | h
  · exact absurd hhd hnt
  · exact h

theorem hasLookup_eq_some {all : List Item} {base hk : Str}
    (h : hasLookup all base = some hk) :
    ∃ it, it ∈ all ∧ it.key = hk ∧ isHasName it.name = true ∧ it.name.drop 4 = base := by
  unfold hasLookup at h
  rcases hopt : (all.filter (fun it => isHasName it.name && it.name.drop 4 = base)).getLast?
    with _ | it
  · rw [hopt] at h; simp at h
  · rw [hopt] at h
    simp only [Option.map_some'] at h
    have hmem := List.mem_of_getLast?_eq_some hopt
    rw [List.mem_filter] at hmem
    have hcond := hmem.2
    simp only [Bool.and_eq_true, decide_eq_true_eq] at hcond
    exact ⟨it, hmem.1, by simpa using h, hcond.1, hcond.2⟩

theorem key_inj {all : List Item} (hnd : (keysOf all).Nodup)
    {a b : Item} (ha : a ∈ all) (hb : b ∈ all) (hk : a.key = b.key) : a = b :=
  List.inj_on_of_nodup_map hnd ha hb hk

/-- A `"Has "`-prefixed name can never be its own `slice(4)` remainder. -/
theorem no_self_has {nm : Str} (h1 : isHasName nm = true) (h2 : nm.drop 4 = nm) : False := by
  have hlen : (nm.take 4).length = 4 := by
    unfold isHasName at h1
    rw [decide_eq_true_eq] at h1
    rw [h1]; rfl
  rw [List.length_take] at hlen
  have h4 : 4 ≤ nm.length := by omega
  have := congrArg List.length h2
  rw [List.length_drop] at this
  omega

/-- A key whose clean name is `"Has "`-prefixed is nonempty. -/
theorem hasItem_key_ne_nil {all : List Item} (hnames : ∀ it ∈ all, it.name = cleanPropName it.key)
    {it : Item} (hmem : it ∈ all) (hhas : isHasName it.name = true) : it.key ≠ [] := by
  intro hnil
  have hname : it.name = [] := by rw [hnames it hmem, hnil]; rfl
  rw [hname] at hhas
  exact absurd hhas (by decide)

theorem mem_of_mem_orderOthers {all : List Item} {l : List Item} {taken : List Str} {k : Str}
    (hinv : WalkInv all l taken) (hm : k ∈ orderOthers all l taken) :
    k ∈ keysOf l ∧ k ∉ taken := by
  induction l generalizing taken with
  | nil => simp [orderOthers] at hm
  | cons it rest ih =>
    simp only [orderOthers] at hm
    split at hm
    next htk =>
      have := ih (walkInv_tail hinv (fun _ h => h) htk) hm
      exact ⟨List.mem_cons_of_mem _ this.1, this.2⟩
    next htk =>
      split at hm
      next hk' hlk =>
        split at hm
        next hguard =>
          rcases List.mem_cons.1 hm with rfl | hm'
          · -- the pulled counterpart: it lies in `l` by the walk invariant
            rcases hasLookup_eq_some hlk with ⟨itH, hHall, hHkey, _, _⟩
            have hHin : itH ∈ it :: rest := hinv itH hHall (hHkey ▸ hguard.2)
            exact ⟨mem_keysOf.2 ⟨itH, hHin, hHkey⟩, hguard.2⟩
          rcases List.mem_cons.1 hm' with rfl | hm''
          · exact ⟨by simp, htk⟩
          · have hinv' : WalkInv all rest (it.key :: hk' :: taken) :=
              walkInv_tail hinv (fun _ h => by simp [h]) (by simp)
            have := ih hinv' hm''
            refine ⟨List.mem_cons_of_mem _ this.1, fun hc => this.2 ?_⟩
            simp [hc]
        next hguard =>
          rcases List.mem_cons.1 hm with rfl | hm'
          · exact ⟨by simp, htk⟩
          · have hinv' : WalkInv all rest (it.key :: taken) :=
              walkInv_tail hinv (fun _ h => List.mem_cons_of_mem _ h) (by simp)
            have := ih hinv' hm'
            refine ⟨List.mem_cons_of_mem _ this.1, fun hc => this.2 ?_⟩
            exact List.mem_cons_of_mem _ hc
      next hlk =>
        rcases List.mem_cons.1 hm with rfl | hm'
        · exact ⟨by simp, htk⟩
        · have hinv' : WalkInv all rest (it.key :: taken) :=
            walkInv_tail hinv (fun _ h => List.mem_cons_of_mem _ h) (by simp)
          have := ih hinv' hm'
          refine ⟨List.mem_cons_of_mem _ this.1, fun hc => this.2 ?_⟩
          exact List.mem_cons_of_mem _ hc

theorem mem_orderOthers_of_mem {all : List Item} {l : List Item} {taken : List Str} {k : Str}
    (hk : k ∈ keysOf l) (hnt : k ∉ taken) : k ∈ orderOthers all l taken := by
  induction l generalizing taken with
  | nil => simp [keysOf] at hk
  | cons it rest ih =>
    simp only [orderOthers]
    have hcases : k = it.key ∨ k ∈ keysOf rest := by
      rcases mem_keysOf.1 hk with ⟨itm, hmem, hkey⟩
      rcases List.mem_cons.1 hmem with rfl | hmem'
      · exact Or.inl hkey.symm
      · exact Or.inr (mem_keysOf.2 ⟨itm, hmem', hkey⟩)
    split
    next htk =>
      rcases hcases with rfl | hkr
      · exact absurd htk hnt
      · exact ih hkr hnt
    next htk =>
      split
      next hk' hlk =>
        split
        next hguard =>
          by_cases he1 : k = hk'
          · simp [he1]
          rcases hcases with rfl | hkr
          · simp
          · by_cases he2 : k = it.key
            · simp [he2]
            · have : k ∈ orderOthers all rest (it.key :: hk' :: taken) :=
                ih hkr (by simp [he1, he2, hnt])
              simp [this]
        next hguard =>
          rcases hcases with rfl | hkr
          · simp
          · by_cases he : k = it.key
            · simp [he]
            · exact List.mem_cons_of_mem _ (ih hkr (by simp [he, hnt]))
      next hlk =>
        rcases hcases with rfl | hkr
        · simp
        · by_cases he : k = it.key
          · simp [he]
          · exact List.mem_cons_of_mem _ (ih hkr (by simp [he, hnt]))

theorem nodup_orderOthers {all : List Item} {l : List Item} {taken : List Str}
    (hsub : l ⊆ all) (hinv : WalkInv all l taken) (hndall : (keysOf all).Nodup)
    (hndl : (keysOf l).Nodup) : (orderOthers all l taken).Nodup := by
  induction l generalizing taken with
  | nil => simp [orderOthers]
  | cons it rest ih =>
    have hsub' : rest ⊆ all := fun x hx => hsub (List.mem_cons_of_mem _ hx)
    have hnd := List.nodup_cons.1 (keysOf_cons ▸ hndl)
    have hndl' : (keysOf rest).Nodup := hnd.2
    simp only [orderOthers]
    split
    next htk =>
      exact ih hsub' (walkInv_tail hinv (fun _ h => h) htk) hndl'
    next htk =>
      split
      next hk' hlk =>
        split
        next hguard =>
          have hne : hk' ≠ it.key := by
            rintro rfl
            rcases hasLookup_eq_some hlk with ⟨itH, hHall, hHkey, hHhas, hHdrop⟩
            have heq : itH = it := key_inj hndall hHall (hsub (by simp)) hHkey
            rw [heq] at hHhas hHdrop
            exact no_self_has hHhas hHdrop
          have hinv' : WalkInv all rest (it.key :: hk' :: taken) :=
            walkInv_tail hinv (fun _ h => by simp [h]) (by simp)
          have hW := ih hsub' hinv' hndl'
          refine List.nodup_cons.2 ⟨?_, List.nodup_cons.2 ⟨fun hc => ?_, hW⟩⟩
          · intro hc
            rcases List.mem_cons.1 hc with h | h
            · exact hne h
            · exact absurd (mem_of_mem_orderOthers hinv' h).2 (by simp)
          · exact absurd (mem_of_mem_orderOthers hinv' hc).2 (by simp)
        next hguard =>
          have hinv' : WalkInv all rest (it.key :: taken) :=
            walkInv_tail hinv (fun _ h => List.mem_cons_of_mem _ h) (by simp)
          refine List.nodup_cons.2 ⟨fun hc => ?_, ih hsub' hinv' hndl'⟩
          exact absurd (mem_of_mem_orderOthers hinv' hc).2 (by simp)
      next hlk =>
        have hinv' : WalkInv all rest (it.key :: taken) :=
          walkInv_tail hinv (fun _ h => List.mem_cons_of_mem _ h) (by simp)
        refine List.nodup_cons.2 ⟨fun hc => ?_, ih hsub' hinv' hndl'⟩
        exact absurd (mem_of_mem_orderOthers hinv' hc).2 (by simp)

theorem orderOthers_perm {others : List Item} (hnd : (keysOf others).Nodup) :
    (orderOthers others others []).Perm (keysOf others) := by
  have h1 : (orderOthers others others []).Nodup :=
    nodup_orderOthers (fun _ h => h) (fun _ h _ => h) hnd hnd
  rw [List.perm_ext_iff_of_nodup h1 hnd]
  intro k
  constructor
  · intro hm; exact (mem_of_mem_orderOthers (fun _ h _ => h) hm).1
  · intro hm; exact mem_orderOthers_of_mem hm (by simp)

theorem mkItems_keys (defs : List (Str × RawDef)) :
    keysOf (mkItems defs) = defs.map Prod.fst := by
  simp only [keysOf, mkItems, List.map_map]
  rfl

theorem heuristicKeys_perm {defs : List (Str × RawDef)} (h : wellFormedDefs defs) :
    (heuristicKeys defs).Perm (defs.map Prod.fst) := by
  unfold heuristicKeys
  have hitems : (keysOf (mkItems defs)).Nodup := by rw [mkItems_keys]; exact h
  have hfilters :
      (mkItems defs).filter (fun i => i.type ≠ PropKind.VARIANT) =
        (mkItems defs).filter (fun a => !(fun i => decide (i.type = PropKind.VARIANT)) a) := by
    apply List.filter_congr
    intro a _
    simp
  have hperm0 :
      ((mkItems defs).filter (fun i => i.type = PropKind.VARIANT) ++
        (mkItems defs).filter (fun i => i.type ≠ PropKind.VARIANT)).Perm (mkItems defs) := by
    rw [hfilters]
    exact List.filter_append_perm _ (mkItems defs)
  have hothers :
      (keysOf ((mkItems defs).filter (fun i => i.type ≠ PropKind.VARIANT))).Nodup :=
    List.Nodup.sublist (List.Sublist.map _ (List.filter_sublist _)) hitems
  have h1 := List.Perm.append_left
    (((mkItems defs).filter (fun i => i.type = PropKind.VARIANT)).map Item.key)
    (orderOthers_perm hothers)
  have h2 : (((mkItems defs).filter (fun i => i.type = PropKind.VARIANT)).map Item.key ++
      keysOf ((mkItems defs).filter (fun i => i.type ≠ PropKind.VARIANT))) =
      keysOf ((mkItems defs).filter (fun i => i.type = PropKind.VARIANT) ++
        (mkItems defs).filter (fun i => i.type ≠ PropKind.VARIANT)) := by
    simp [keysOf]
  have h3 := List.Perm.map Item.key hperm0
  rw [h2] at h1
  have h4 : (keysOf (mkItems defs)) = defs.map Prod.fst := mkItems_keys defs
  exact h1.trans ((h4 ▸ h3 : (keysOf _).Perm (defs.map Prod.fst)))

theorem lookup_isSome_of_mem_keys {β : Type} {l : List (Str × β)} {k : Str}
    (h : k ∈ l.map Prod.fst) : (l.lookup k).isSome := by
  rw [List.lookup_isSome_iff]
  rcases List.mem_map.1 h with ⟨p, hp, rfl⟩
  exact ⟨p, hp, by simp⟩

theorem filterMap_lookup_keys (mk : Str → RawDef → PropDefLite)
    (defs : List (Str × RawDef)) (keys : List Str)
    (h : ∀ k ∈ keys, k ∈ defs.map Prod.fst) :
    (keys.filterMap (fun k => (defs.lookup k).map (fun d => (k, mk k d)))).map Prod.fst =
      keys := by
  induction keys with
  | nil => simp
  | cons k ks ih =>
    have hsome : (defs.lookup k).isSome := lookup_isSome_of_mem_keys (h k (by simp))
    rcases hlk : defs.lookup k with _ | d
    · rw [hlk] at hsome; simp at hsome
    · simp [List.filterMap_cons, hlk, ih (fun a ha => h a (by simp [ha]))]

theorem collectFromDefs_keys (mk : Str → RawDef → PropDefLite)
    {defs : List (Str × RawDef)} (h : wellFormedDefs defs) :
    ((collectFromDefs mk defs).defs).map Prod.fst = (collectFromDefs mk defs).order := by
  unfold collectFromDefs
  exact filterMap_lookup_keys mk defs (heuristicKeys defs)
    (fun k hk => ((heuristicKeys_perm h).mem_iff).1 hk)

theorem mem_keys_of_lookup_isSome {β : Type} {l : List (Str × β)} {k : Str}
    (h : (l.lookup k).isSome) : k ∈ l.map Prod.fst := by
  rw [List.lookup_isSome_iff] at h
  rcases h with ⟨p, hp, hbeq⟩
  rw [beq_iff_eq] at hbeq
  exact hbeq ▸ List.mem_map.2 ⟨p, hp, rfl⟩

/-- The fallback's `seen` set, `order` array and `out` record stay in sync:
`out` enumerates exactly the keys of `order` (in the same sequence) and `seen`
has the same members as `order`, which is duplicate-free. -/
def LegacyInv (st : LegacyState) : Prop :=
  st.out.map Prod.fst = st.order ∧ (∀ k, k ∈ st.seen ↔ k ∈ st.order) ∧ st.order.Nodup

theorem legacyInv_init : LegacyInv { out := [], order := [], seen := [] } :=
  ⟨rfl, fun k => by simp, List.nodup_nil⟩

theorem legacyStepKey_inv {member : List (Str × RawDef)} {st : LegacyState} {key : Str}
    (h : LegacyInv st) : LegacyInv (legacyStepKey member st key) := by
  unfold legacyStepKey
  split
  · exact h
  · unfold legacyMark legacyStore
    by_cases hseen : key ∈ st.seen
    · rw [if_pos hseen]
      have hmem : key ∈ st.out.map Prod.fst := by rw [h.1]; exact (h.2.1 key).1 hseen
      rw [if_pos (lookup_isSome_of_mem_keys hmem)]
      exact h
    · rw [if_neg hseen]
      have hnotord : key ∉ st.order := fun hc => hseen ((h.2.1 key).2 hc)
      have hnotkeys : key ∉ st.out.map Prod.fst := by rw [h.1]; exact hnotord
      have hnone : ¬(st.out.lookup key).isSome = true := fun hs =>
        hnotkeys (mem_keys_of_lookup_isSome hs)
      rw [if_neg hnone]
      refine ⟨?_, fun k => ?_, ?_⟩
      · simp [h.1]
      · simp only [List.mem_cons, List.mem_append, List.mem_singleton]
        rw [h.2.1 k]
        tauto
      · have hdisj : List.Disjoint st.order [key] := by
          intro a ha hak
          rw [List.mem_singleton] at hak
          exact hnotord (hak ▸ ha)
        exact List.Nodup.append h.2.2 (by simp) hdisj

theorem foldl_legacyStepKey_inv (member : List (Str × RawDef)) (keys : List Str)
    {st : LegacyState} (h : LegacyInv st) :
    LegacyInv (keys.foldl (legacyStepKey member) st) := by
  induction keys generalizing st with
  | nil => exact h
  | cons k ks ih => exact ih (legacyStepKey_inv h)

theorem legacyStepMember_inv {st : LegacyState} {m : Option (List (Str × RawDef))}
    (h : LegacyInv st) : LegacyInv (legacyStepMember st m) := by
  cases m with
  | none => exact h
  | some member => exact foldl_legacyStepKey_inv member _ h

theorem legacyMerge_state_inv (members : List (Option (List (Str × RawDef)))) :
    LegacyInv (members.foldl legacyStepMember { out := [], order := [], seen := [] }) := by
  have : ∀ (ms : List (Option (List (Str × RawDef)))) (st : LegacyState),
      LegacyInv st → LegacyInv (ms.foldl legacyStepMember st) := by
    intro ms
    induction ms with
    | nil => exact fun st h => h
    | cons m rest ih => exact fun st h => ih _ (legacyStepMember_inv h)
  exact this members _ legacyInv_init

theorem legacyMerge_sync (members : List (Option (List (Str × RawDef)))) :
    ((legacyMerge members).defs).map Prod.fst = (legacyMerge members).order
      ∧ ((legacyMerge members).order).Nodup := by
  have h := legacyMerge_state_inv members
  exact ⟨h.1, h.2.2⟩

/-- The fallback only ever appends to `out` and `order`. -/
theorem legacyMark_shape (st : LegacyState) (key : Str) :
    ∃ dOrd dSeen, legacyMark st key =
      { out := st.out, order := st.order ++ dOrd, seen := dSeen ++ st.seen } := by
  unfold legacyMark
  by_cases hseen : key ∈ st.seen
  · rw [if_pos hseen]; exact ⟨[], [], by simp⟩
  · rw [if_neg hseen]; exact ⟨[key], [key], rfl⟩

theorem legacyStore_shape (st : LegacyState) (key : Str) (d : RawDef) :
    ∃ dOut, legacyStore st key d =
      { out := st.out ++ dOut, order := st.order, seen := st.seen } := by
  unfold legacyStore
  by_cases hs : (st.out.lookup key).isSome = true
  · rw [if_pos hs]; exact ⟨[], by simp⟩
  · rw [if_neg hs]; exact ⟨[(key, buildDefSet key d)], rfl⟩

theorem legacyStepKey_shape (member : List (Str × RawDef)) (st : LegacyState) (key : Str) :
    ∃ dOut dOrd dSeen, legacyStepKey member st key =
      { out := st.out ++ dOut, order := st.order ++ dOrd, seen := dSeen ++ st.seen } := by
  unfold legacyStepKey
  split
  · exact ⟨[], [], [], by simp⟩
  · rcases legacyMark_shape st key with ⟨d2, d3, hmark⟩
    rcases legacyStore_shape (legacyMark st key) key _ with ⟨d1, hstore⟩
    rw [hstore, hmark]
    exact ⟨d1, d2, d3, rfl⟩

theorem foldl_legacyStepKey_shape (member : List (Str × RawDef)) (keys : List Str)
    (st : LegacyState) :
    ∃ dOut dOrd dSeen, keys.foldl (legacyStepKey member) st =
      { out := st.out ++ dOut, order := st.order ++ dOrd, seen := dSeen ++ st.seen } := by
  induction keys generalizing st with
  | nil => exact ⟨[], [], [], by simp⟩
  | cons k ks ih =>
    rcases legacyStepKey_shape member st k with ⟨d1, d2, d3, heq⟩
    rcases ih (legacyStepKey member st k) with ⟨e1, e2, e3, heq2⟩
    refine ⟨d1 ++ e1, d2 ++ e2, e3 ++ d3, ?_⟩
    rw [List.foldl_cons, heq2, heq]
    simp

theorem legacyStepMember_shape (st : LegacyState) (m : Option (List (Str × RawDef))) :
    ∃ dOut dOrd dSeen, legacyStepMember st m =
      { out := st.out ++ dOut, order := st.order ++ dOrd, seen := dSeen ++ st.seen } := by
  cases m with
  | none => exact ⟨[], [], [], by simp [legacyStepMember]⟩
  | some member => exact foldl_legacyStepKey_shape member _ st

theorem legacyMerge_append_one (members : List (Option (List (Str × RawDef))))
    (extra : Option (List (Str × RawDef))) :
    ∃ dOut dOrd,
      (legacyMerge (members ++ [extra])).defs = (legacyMerge members).defs ++ dOut
        ∧ (legacyMerge (members ++ [extra])).order = (legacyMerge members).order ++ dOrd := by
  unfold legacyMerge
  rw [List.foldl_append]
  rcases legacyStepMember_shape
      (members.foldl legacyStepMember { out := [], order := [], seen := [] }) extra
    with ⟨d1, d2, d3, heq⟩
  exact ⟨d1, d2, by simp [heq]⟩

theorem indexOf_append_left {l₁ l₂ : List Str} {a : Str} (h : a ∈ l₁) :
    (l₁ ++ l₂).indexOf a = l₁.indexOf a := by
  induction l₁ with
  | nil => simp at h
  | cons b t ih =>
    rw [List.cons_append, List.indexOf_cons, List.indexOf_cons]
    by_cases hba : b = a
    · simp [hba]
    · have hbeq : (b == a) = false := beq_false_of_ne hba
      rcases List.mem_cons.1 h with rfl | h'
      · exact absurd rfl hba
      · simp [hbeq, ih h']

theorem legacyStepKey_noop {member : List (Str × RawDef)} {st : LegacyState} {key : Str}
    (hInv : LegacyInv st) (hseen : key ∈ st.order) : legacyStepKey member st key = st := by
  unfold legacyStepKey
  split
  · rfl
  · unfold legacyMark legacyStore
    rw [if_pos ((hInv.2.1 key).2 hseen)]
    rw [if_pos (lookup_isSome_of_mem_keys (by rw [hInv.1]; exact hseen))]

theorem foldl_legacyStepKey_noop {member : List (Str × RawDef)} {keys : List Str}
    {st : LegacyState} (hInv : LegacyInv st) (h : ∀ k ∈ keys, k ∈ st.order) :
    keys.foldl (legacyStepKey member) st = st := by
  induction keys with
  | nil => rfl
  | cons k ks ih =>
    rw [List.foldl_cons, legacyStepKey_noop hInv (h k (by simp))]
    exact ih (fun a ha => h a (by simp [ha]))

/-! ### Claim C1: key completeness -/

/-- C1: for every property-definition map handed to the collector — the
set-level map, the single-component map, and the map merged by the legacy
member fallback — the produced `order` is a permutation of exactly the
produced definition map's keys: every key appears exactly once, with no
duplicates and no omissions.  For the two single-map paths the produced keys
are moreover a permutation of the input map's keys. -/
theorem C1_key_completeness :
    (∀ (set : ComponentSetModel) (defsSet : List (Str × RawDef)),
        set.componentPropertyDefinitions = some defsSet → wellFormedDefs defsSet →
          ((collectComponentPropsWithOrder set).order).Perm (defsSet.map Prod.fst)
            ∧ ((collectComponentPropsWithOrder set).defs).map Prod.fst =
                (collectComponentPropsWithOrder set).order)
    ∧ (∀ (comp : ComponentModel) (defs : List (Str × RawDef)),
        comp.componentPropertyDefinitions = some defs → wellFormedDefs defs →
          ((collectPropsFromComponent comp).order).Perm (defs.map Prod.fst)
            ∧ ((collectPropsFromComponent comp).defs).map Prod.fst =
                (collectPropsFromComponent comp).order)
    ∧ (∀ set : ComponentSetModel, set.componentPropertyDefinitions = none →
        ((collectComponentPropsWithOrder set).defs).map Prod.fst =
            (collectComponentPropsWithOrder set).order
          ∧ ((collectComponentPropsWithOrder set).order).Nodup) := by
  refine ⟨?_, ?_, ?_⟩
  · intro set defsSet hdefs hwf
    unfold collectComponentPropsWithOrder
    rw [hdefs]
    exact ⟨heuristicKeys_perm hwf, collectFromDefs_keys buildDefSet hwf⟩
  · intro comp defs hdefs hwf
    unfold collectPropsFromComponent
    rw [hdefs]
    exact ⟨heuristicKeys_perm hwf, collectFromDefs_keys buildDefComponent hwf⟩
  · intro set hdefs
    unfold collectComponentPropsWithOrder
    rw [hdefs]
    exact legacyMerge_sync _

/-! Concrete fixtures used by the witnesses and counterexamples. -/

def rawBool : RawDef :=
  { type := PropKind.BOOLEAN, defaultValue := some (DefVal.bval true)
    preferredValues := none, variantOptions := none }

def rawText : RawDef :=
  { type := PropKind.TEXT, defaultValue := some (DefVal.sval (str "Body text"))
    preferredValues := none, variantOptions := none }

def rawVariantLM : RawDef :=
  { type := PropKind.VARIANT, defaultValue := none
    preferredValues := none, variantOptions := some [str "L", str "M"] }

def rawSwap : RawDef :=
  { type := PropKind.INSTANCE_SWAP, defaultValue := some (DefVal.sval (str "1:2"))
    preferredValues := some [PrefVal.strv (str "1:3")], variantOptions := none }

def c1defs : List (Str × RawDef) :=
  [(str "Has X", rawBool), (str "X", rawSwap), (str "Size#1", rawVariantLM)]

def c1set : ComponentSetModel :=
  { name := str "Button", componentPropertyDefinitions := some c1defs, children := [] }

theorem C1_key_completeness_witness :
    (c1set.componentPropertyDefinitions = some c1defs ∧ wellFormedDefs c1defs)
      ∧ ((collectComponentPropsWithOrder c1set).order).Perm (c1defs.map Prod.fst)
      ∧ ((collectComponentPropsWithOrder c1set).defs).map Prod.fst =
          (collectComponentPropsWithOrder c1set).order :=
  ⟨⟨rfl, by decide⟩, C1_key_completeness.1 c1set c1defs rfl (by decide)⟩

/-! ### Claim C5: the legacy fallback is first-seen-wins -/

/-- C5: in the legacy fallback, members are folded in their given order and a
key already present is ignored entirely: appending one more member changes
neither the stored definition of an existing key nor that key's index in the
order, and a member all of whose keys were already seen leaves the merge
result completely unchanged. -/
theorem C5_first_seen_wins :
    (∀ (members : List (Option (List (Str × RawDef))))
        (extra : Option (List (Str × RawDef))) (k : Str),
        k ∈ (legacyMerge members).order →
          ((legacyMerge (members ++ [extra])).defs).lookup k =
              ((legacyMerge members).defs).lookup k
            ∧ ((legacyMerge (members ++ [extra])).order).indexOf k =
              ((legacyMerge members).order).indexOf k)
    ∧ (∀ (members : List (Option (List (Str × RawDef)))) (member : List (Str × RawDef)),
        wellFormedDefs member →
        (∀ k ∈ member.map Prod.fst, k ∈ (legacyMerge members).order) →
        legacyMerge (members ++ [some member]) = legacyMerge members) := by
  constructor
  · intro members extra k hk
    rcases legacyMerge_append_one members extra with ⟨dOut, dOrd, hdefs, hord⟩
    constructor
    · rw [hdefs, List.lookup_append]
      have hkeys : k ∈ ((legacyMerge members).defs).map Prod.fst := by
        rw [(legacyMerge_sync members).1]; exact hk
      have hsome := lookup_isSome_of_mem_keys hkeys
      rcases hlk : ((legacyMerge members).defs).lookup k with _ | v
      · rw [hlk] at hsome; simp at hsome
      · rfl
    · rw [hord]; exact indexOf_append_left hk
  · intro members member hwf hsub
    have hInv := legacyMerge_state_inv members
    have hstep : legacyStepMember
        (members.foldl legacyStepMember { out := [], order := [], seen := [] })
        (some member) =
        members.foldl legacyStepMember { out := [], order := [], seen := [] } := by
      unfold legacyStepMember
      apply foldl_legacyStepKey_noop hInv
      intro k hk
      exact hsub k (((heuristicKeys_perm hwf).mem_iff).1 hk)
    unfold legacyMerge
    rw [List.foldl_append, List.foldl_cons, List.foldl_nil, hstep]

def c5members : List (Option (List (Str × RawDef))) := [some [(str "A", rawBool)]]

def c5dup : List (Str × RawDef) := [(str "A", rawText)]

theorem C5_first_seen_wins_witness :
    (wellFormedDefs c5dup
        ∧ (∀ k ∈ c5dup.map Prod.fst, k ∈ (legacyMerge c5members).order)
        ∧ str "A" ∈ (legacyMerge c5members).order)
      ∧ legacyMerge (c5members ++ [some c5dup]) = legacyMerge c5members
      ∧ ((legacyMerge (c5members ++ [some c5dup])).defs).lookup (str "A") =
          ((legacyMerge c5members).defs).lookup (str "A") :=
  ⟨⟨by decide, by decide, by decide⟩,
    C5_first_seen_wins.2 c5members c5dup (by decide) (by decide),
    (C5_first_seen_wins.1 c5members (some c5dup) (str "A") (by decide)).1⟩

/-! ### Claim C2: variant precedence -/

theorem lookup_eq_of_mem_nodup {β : Type} {l : List (Str × β)} {k : Str} {b : β}
    (hnd : (l.map Prod.fst).Nodup) (hmem : (k, b) ∈ l) : l.lookup k = some b := by
  induction l with
  | nil => simp at hmem
  | cons p t ih =>
    rw [List.map_cons] at hnd
    have hcons := List.nodup_cons.1 hnd
    rcases List.mem_cons.1 hmem with heq | hm
    · rw [← heq]
      exact List.lookup_cons_self
    · have hk : k ∈ t.map Prod.fst := List.mem_map.2 ⟨(k, b), hm, rfl⟩
      have hne : (k == p.1) = false := by
        rw [beq_eq_false_iff_ne]
        rintro rfl
        exact hcons.1 hk
      obtain ⟨p1, p2⟩ := p
      rw [List.lookup_cons]
      simp only at hne
      rw [hne]
      exact ih hcons.2 hm

theorem lookup_filterMap_keys (mk : Str → RawDef → PropDefLite)
    (defs : List (Str × RawDef)) (keys : List Str) (hnd : keys.Nodup)
    (hmem : ∀ a ∈ keys, a ∈ defs.map Prod.fst) {k : Str} {d : RawDef}
    (hk : k ∈ keys) (hlk : defs.lookup k = some d) :
    (keys.filterMap (fun a => (defs.lookup a).map (fun b => (a, mk a b)))).lookup k =
      some (mk k d) := by
  induction keys with
  | nil => simp at hk
  | cons k' ks ih =>
    have hnd' := List.nodup_cons.1 hnd
    by_cases heq : k' = k
    · subst heq
      rw [List.filterMap_cons, hlk]
      simp [List.lookup_cons]
    · have hks : k ∈ ks := by
        rcases List.mem_cons.1 hk with rfl | h
        · exact absurd rfl heq
        · exact h
      have hsome : (defs.lookup k').isSome := lookup_isSome_of_mem_keys (hmem k' (by simp))
      rcases hlk' : defs.lookup k' with _ | d'
      · rw [hlk'] at hsome; simp at hsome
      · rw [List.filterMap_cons, hlk']
        simp only [Option.map_some']
        rw [List.lookup_cons]
        have : (k == k') = false := beq_eq_false_iff_ne.2 (fun h => heq h.symm)
        rw [this]
        exact ih hnd'.2 (fun a ha => hmem a (by simp [ha])) hks

/-- The kind recorded for key `k` in a collection result. -/
def kindAt (r : CollectResult) (k : Str) : Option PropKind :=
  (r.defs.lookup k).map PropDefLite.type

/-- Every VARIANT key of the result precedes every key of any other kind. -/
def variantsLead (r : CollectResult) : Prop :=
  ∀ i j : Fin r.order.length,
    kindAt r (r.order.get i) = some PropKind.VARIANT →
    kindAt r (r.order.get j) ≠ some PropKind.VARIANT → (i : Nat) < (j : Nat)

/-- If the order splits into an all-VARIANT segment followed by a no-VARIANT
segment, then variants lead. -/
theorem variantsLead_of_append {r : CollectResult} {A B : List Str}
    (horder : r.order = A ++ B)
    (hA : ∀ k ∈ A, kindAt r k = some PropKind.VARIANT)
    (hB : ∀ k ∈ B, kindAt r k ≠ some PropKind.VARIANT) : variantsLead r := by
  have hmem : ∀ m : Fin r.order.length,
      ((m : Nat) < A.length ∧ r.order.get m ∈ A)
        ∨ (A.length ≤ (m : Nat) ∧ r.order.get m ∈ B) := by
    intro m
    have hcast : r.order.get m = (A ++ B).get ⟨m, by rw [← horder]; exact m.isLt⟩ :=
      List.get_of_eq horder m
    by_cases hlt : (m : Nat) < A.length
    · left
      refine ⟨hlt, ?_⟩
      rw [hcast]
      simp only [List.get_eq_getElem]
      rw [List.getElem_append_left hlt]
      exact List.getElem_mem _
    · right
      push_neg at hlt
      refine ⟨hlt, ?_⟩
      rw [hcast]
      simp only [List.get_eq_getElem]
      rw [List.getElem_append_right hlt]
      exact List.getElem_mem _
  intro i j hi hj
  rcases hmem i with ⟨hilt, _⟩ | ⟨_, hiB⟩
  · rcases hmem j with ⟨_, hjA⟩ | ⟨hjge, _⟩
    · exact absurd (hA _ hjA) hj
    · omega
  · exact absurd hi (hB _ hiB)

theorem variantsLead_collectFromDefs (mk : Str → RawDef → PropDefLite)
    (hmk : ∀ k d, (mk k d).type = d.type) {defs : List (Str × RawDef)}
    (hwf : wellFormedDefs defs) : variantsLead (collectFromDefs mk defs) := by
  have hkeysnd : (heuristicKeys defs).Nodup :=
    ((heuristicKeys_perm hwf).nodup_iff).2 hwf
  have hmemkeys : ∀ a ∈ heuristicKeys defs, a ∈ defs.map Prod.fst :=
    fun a ha => ((heuristicKeys_perm hwf).mem_iff).1 ha
  -- the recorded kind of any key of the order is its raw kind
  have hkind : ∀ it ∈ mkItems defs,
      kindAt (collectFromDefs mk defs) it.key = some it.type ∨
        it.key ∉ heuristicKeys defs := by
    intro it hit
    rcases List.mem_map.1 hit with ⟨p, hp, rfl⟩
    by_cases hk : p.1 ∈ heuristicKeys defs
    · left
      have hlk : defs.lookup p.1 = some p.2 := lookup_eq_of_mem_nodup hwf hp
      unfold kindAt collectFromDefs
      rw [lookup_filterMap_keys mk defs _ hkeysnd hmemkeys hk hlk]
      simp [hmk]
    · right; exact hk
  -- decompose the order into the VARIANT segment and the walk segment
  have horder : (collectFromDefs mk defs).order =
      ((mkItems defs).filter (fun i => i.type = PropKind.VARIANT)).map Item.key ++
        orderOthers ((mkItems defs).filter (fun i => i.type ≠ PropKind.VARIANT))
          ((mkItems defs).filter (fun i => i.type ≠ PropKind.VARIANT)) [] := rfl
  set A := ((mkItems defs).filter (fun i => i.type = PropKind.VARIANT)).map Item.key with hA
  set B := orderOthers ((mkItems defs).filter (fun i => i.type ≠ PropKind.VARIANT))
    ((mkItems defs).filter (fun i => i.type ≠ PropKind.VARIANT)) [] with hB
  have hvariant : ∀ k ∈ A, kindAt (collectFromDefs mk defs) k = some PropKind.VARIANT := by
    intro k hkA
    rcases List.mem_map.1 hkA with ⟨it, hitf, rfl⟩
    have hitm := List.mem_filter.1 hitf
    have htype : it.type = PropKind.VARIANT := by simpa using hitm.2
    have hkmem : it.key ∈ heuristicKeys defs := by
      show it.key ∈ A ++ B
      exact List.mem_append_left _ hkA
    rcases hkind it hitm.1 with h | h
    · rw [h, htype]
    · exact absurd hkmem h
  have hother : ∀ k ∈ B, kindAt (collectFromDefs mk defs) k ≠ some PropKind.VARIANT := by
    intro k hkB
    have hkm := (mem_of_mem_orderOthers (fun _ h _ => h) hkB).1
    rcases mem_keysOf.1 hkm with ⟨it, hitf, rfl⟩
    have hitm := List.mem_filter.1 hitf
    have htype : it.type ≠ PropKind.VARIANT := by simpa using hitm.2
    have hkmem : it.key ∈ heuristicKeys defs := by
      show it.key ∈ A ++ B
      exact List.mem_append_right _ hkB
    rcases hkind it hitm.1 with h | h
    · rw [h]
      intro hc
      exact htype (by injection hc)
    · exact absurd hkmem h
  exact variantsLead_of_append horder hvariant hother

/-- C2 (counterexample input): a set with no set-level definitions whose first
member contributes only a BOOLEAN key and whose second member contributes a
VARIANT key. -/
def c2set : ComponentSetModel :=
  { name := str "S", componentPropertyDefinitions := none
    children :=
      [ChildNode.component
        { name := str "A", componentPropertyDefinitions := some [(str "B", rawBool)] },
       ChildNode.component
        { name := str "C", componentPropertyDefinitions := some [(str "V", rawVariantLM)] }] }

/-- C2 (counterexample): in the legacy member-merge fallback the heuristic is
applied per member, not to the merged key set, so a VARIANT key contributed
only by a later member lands after an earlier member's non-VARIANT keys. -/
theorem C2_variant_precedence_cex :
    ¬ variantsLead (collectComponentPropsWithOrder c2set)
      ∧ (collectComponentPropsWithOrder c2set).order = [str "B", str "V"]
      ∧ kindAt (collectComponentPropsWithOrder c2set) (str "V") = some PropKind.VARIANT
      ∧ kindAt (collectComponentPropsWithOrder c2set) (str "B") = some PropKind.BOOLEAN := by
  refine ⟨?_, by decide, by decide, by decide⟩
  intro h
  have := h ⟨1, by decide⟩ ⟨0, by decide⟩ (by decide) (by decide)
  exact absurd this (by decide)

/-- C2 (amended): for every ordered result produced by the heuristic on a
single definitions map — the set-level path and the single-component path —
every key of kind VARIANT appears before every key of any other kind.  (In the
legacy member-merge fallback the heuristic is applied per member, so the claim
fails on the merged order; see the counterexample.) -/
theorem C2_variant_precedence :
    (∀ (set : ComponentSetModel) (defsSet : List (Str × RawDef)),
        set.componentPropertyDefinitions = some defsSet → wellFormedDefs defsSet →
          variantsLead (collectComponentPropsWithOrder set))
    ∧ (∀ (comp : ComponentModel) (defs : List (Str × RawDef)),
        comp.componentPropertyDefinitions = some defs → wellFormedDefs defs →
          variantsLead (collectPropsFromComponent comp)) := by
  constructor
  · intro set defsSet hdefs hwf
    unfold collectComponentPropsWithOrder
    rw [hdefs]
    exact variantsLead_collectFromDefs buildDefSet (fun _ _ => rfl) hwf
  · intro comp defs hdefs hwf
    unfold collectPropsFromComponent
    rw [hdefs]
    exact variantsLead_collectFromDefs buildDefComponent (fun _ _ => rfl) hwf

theorem C2_variant_precedence_witness :
    (c1set.componentPropertyDefinitions = some c1defs ∧ wellFormedDefs c1defs)
      ∧ variantsLead (collectComponentPropsWithOrder c1set) :=
  ⟨⟨rfl, by decide⟩, C2_variant_precedence.1 c1set c1defs rfl (by decide)⟩

/-! ### Claim C3: "Has X" pairing -/

theorem hasPrefixStr_length : hasPrefixStr.length = 4 := by decide

theorem isHasName_append {x : Str} : isHasName (hasPrefixStr ++ x) = true := by
  unfold isHasName
  rw [decide_eq_true_eq]
  exact List.take_left' hasPrefixStr_length

theorem drop_append_has {x : Str} : (hasPrefixStr ++ x).drop 4 = x :=
  List.drop_left' hasPrefixStr_length

/-- When exactly one key of `defs` has the display name `"Has " ++ x`, the
`hasMap` lookup at base `x` over the non-variant items returns that key. -/
theorem hasLookup_unique {defs : List (Str × RawDef)} {kH x : Str} {itH : Item}
    (hitH : itH ∈ (mkItems defs).filter (fun i => i.type ≠ PropKind.VARIANT))
    (hkeyH : itH.key = kH) (hnameH : itH.name = hasPrefixStr ++ x)
    (huniq : ∀ p ∈ defs, cleanPropName p.1 = hasPrefixStr ++ x → p.1 = kH) :
    hasLookup ((mkItems defs).filter (fun i => i.type ≠ PropKind.VARIANT)) x = some kH := by
  unfold hasLookup
  have hpred : (fun it => isHasName it.name && it.name.drop 4 = x) itH = true := by
    simp only [hnameH, isHasName_append, drop_append_has, Bool.and_eq_true, decide_eq_true_eq]
    exact ⟨trivial, trivial⟩
  have hne : ((mkItems defs).filter (fun i => i.type ≠ PropKind.VARIANT)).filter
      (fun it => isHasName it.name && it.name.drop 4 = x) ≠ [] := by
    intro hc
    have : itH ∈ ([] : List Item) := hc ▸ List.mem_filter.2 ⟨hitH, hpred⟩
    simp at this
  rcases hlast : (((mkItems defs).filter (fun i => i.type ≠ PropKind.VARIANT)).filter
      (fun it => isHasName it.name && it.name.drop 4 = x)).getLast? with _ | itL
  · rw [List.getLast?_eq_none_iff] at hlast
    exact absurd hlast hne
  · have hmemL := List.mem_of_getLast?_eq_some hlast
    rw [List.mem_filter] at hmemL
    have hpredL := hmemL.2
    simp only [Bool.and_eq_true, decide_eq_true_eq] at hpredL
    have hLitems : itL ∈ mkItems defs := (List.mem_filter.1 hmemL.1).1
    rcases List.mem_map.1 hLitems with ⟨q, hq, hqe⟩
    have hLname : itL.name = hasPrefixStr ++ x := by
      have h1 : itL.name.take 4 = hasPrefixStr := by
        have := hpredL.1
        unfold isHasName at this
        rwa [decide_eq_true_eq] at this
      calc itL.name = itL.name.take 4 ++ itL.name.drop 4 := (List.take_append_drop _ _).symm
        _ = hasPrefixStr ++ x := by rw [h1, hpredL.2]
    have hLkey : itL.key = kH := by
      have hclean : cleanPropName q.1 = hasPrefixStr ++ x := by
        have : itL.name = cleanPropName q.1 := by rw [← hqe]
        rw [← this, hLname]
      have := huniq q hq hclean
      rw [← hqe]
      exact this
    rw [hlast]
    simp [hLkey]

/-- The central pairing property of the placement walk: if `kH` is the unique
pullable counterpart of `itX`'s display name, neither key is taken, `itX` has
not been passed yet, and no earlier item shares `itX`'s display name, then the
walk emits `kH` immediately followed by `itX.key`. -/
theorem orderOthers_pairing {all : List Item} {itX : Item} {kH : Str}
    (hall : (keysOf all).Nodup)
    (hnames : ∀ it ∈ all, it.name = cleanPropName it.key)
    (hX : itX ∈ all)
    (hXnothas : itX.name.take 4 ≠ hasPrefixStr)
    (hH : hasLookup all itX.name = some kH)
    (hpull : ∀ b hk, hasLookup all b = some hk → hk = kH → b = itX.name) :
    ∀ (l1 : List Item) (l2 : List Item) (taken : List Str),
      itX.key ∉ taken → kH ∉ taken →
      itX.key ∉ keysOf l1 → kH ∉ keysOf l1 →
      (∀ it ∈ l1, it.name ≠ itX.name) →
      ∃ p s, orderOthers all (l1 ++ itX :: l2) taken = p ++ kH :: itX.key :: s := by
  have hkHne : kH ≠ [] := by
    rcases hasLookup_eq_some hH with ⟨itH, hitH, hkeyH, hhasH, _⟩
    rw [← hkeyH]
    exact hasItem_key_ne_nil hnames hitH hhasH
  intro l1
  induction l1 with
  | nil =>
    intro l2 taken hXt hHt _ _ _
    simp only [List.nil_append, orderOthers]
    rw [if_neg hXt]
    simp only [hH]
    rw [if_pos ⟨hkHne, hHt⟩]
    exact ⟨[], _, rfl⟩
  | cons it l1' ih =>
    intro l2 taken hXt hHt hXl1 hHl1 hnamel1
    have hXne : itX.key ≠ it.key := by
      intro hc
      exact hXl1 (by simp [hc])
    have hHne : kH ≠ it.key := by
      intro hc
      exact hHl1 (by simp [hc])
    have hXl1' : itX.key ∉ keysOf l1' := fun hc => hXl1 (by simp [hc])
    have hHl1' : kH ∉ keysOf l1' := fun hc => hHl1 (by simp [hc])
    have hnamel1' : ∀ a ∈ l1', a.name ≠ itX.name := fun a ha => hnamel1 a (by simp [ha])
    have hnameit : it.name ≠ itX.name := hnamel1 it (by simp)
    simp only [List.cons_append, orderOthers]
    by_cases htk : it.key ∈ taken
    · rw [if_pos htk]
      exact ih l2 taken hXt hHt hXl1' hHl1' hnamel1'
    · rw [if_neg htk]
      rcases hlk : hasLookup all it.name with _ | hk'
      · simp only [hlk]
        rcases ih l2 (it.key :: taken) (by simp [hXne, hXt])
            (by simp [hHne, hHt]) hXl1' hHl1' hnamel1' with ⟨p, s, hps⟩
        exact ⟨it.key :: p, s, by rw [List.append_eq, hps]; rfl⟩
      · simp only [hlk]
        have hk'neH : hk' ≠ kH := fun he => hnameit (hpull it.name hk' hlk he)
        have hk'neX : hk' ≠ itX.key := by
          intro he
          rcases hasLookup_eq_some hlk with ⟨itm, hitm, hkeq, hhas, _⟩
          have heqX : itm = itX := key_inj hall hitm hX (by rw [hkeq, he])
          rw [heqX] at hhas
          unfold isHasName at hhas
          rw [decide_eq_true_eq] at hhas
          exact hXnothas hhas
        by_cases hguard : hk' ≠ [] ∧ hk' ∉ taken
        · rw [if_pos hguard]
          rcases ih l2 (it.key :: hk' :: taken)
              (by simp [hXne, Ne.symm hk'neX, hXt])
              (by simp [hHne, Ne.symm hk'neH, hHt]) hXl1' hHl1' hnamel1' with ⟨p, s, hps⟩
          exact ⟨hk' :: it.key :: p, s, by rw [List.append_eq, hps]; rfl⟩
        · rw [if_neg hguard]
          rcases ih l2 (it.key :: taken) (by simp [hXne, hXt])
              (by simp [hHne, hHt]) hXl1' hHl1' hnamel1' with ⟨p, s, hps⟩
          exact ⟨it.key :: p, s, by rw [List.append_eq, hps]; rfl⟩

theorem keysOf_filter_subset_keys (l : List (Str × RawDef)) {k : Str}
    (h : k ∈ keysOf ((mkItems l).filter (fun i => i.type ≠ PropKind.VARIANT))) :
    k ∈ l.map Prod.fst := by
  rcases mem_keysOf.1 h with ⟨it, hit, rfl⟩
  have hit' : it ∈ mkItems l := (List.mem_filter.1 hit).1
  rcases List.mem_map.1 hit' with ⟨q, hq, rfl⟩
  exact List.mem_map.2 ⟨q, hq, rfl⟩

/-- C3 (amended): if the input definition map contains a Boolean key whose
display name is `"Has X"` and a key whose display name is `"X"` (not a
VARIANT, `"X"` itself not `"Has "`-prefixed, both display names unique), and
the `"X"` key appears **before** the `"Has X"` key in the input, then the
produced order places the `"Has X"` key immediately before the `"X"` key.
(When `"Has X"` precedes `"X"` in the input they are placed independently, so
the claim's "regardless of the two keys' relative positions" fails; see the
counterexample.) -/
theorem C3_has_pairing :
    ∀ (l1 l2 l3 : List (Str × RawDef)) (kH kX x : Str) (dH dX : RawDef),
      wellFormedDefs (l1 ++ (kX, dX) :: l2 ++ (kH, dH) :: l3) →
      dH.type = PropKind.BOOLEAN →
      cleanPropName kH = hasPrefixStr ++ x →
      dX.type ≠ PropKind.VARIANT →
      cleanPropName kX = x →
      x.take 4 ≠ hasPrefixStr →
      (∀ q ∈ l1 ++ (kX, dX) :: l2 ++ (kH, dH) :: l3,
        cleanPropName q.1 = hasPrefixStr ++ x → q.1 = kH) →
      (∀ q ∈ l1 ++ (kX, dX) :: l2 ++ (kH, dH) :: l3,
        cleanPropName q.1 = x → q.1 = kX) →
      ∃ p s,
        (collectFromDefs buildDefSet (l1 ++ (kX, dX) :: l2 ++ (kH, dH) :: l3)).order =
            p ++ kH :: kX :: s
          ∧ (collectFromDefs buildDefComponent
              (l1 ++ (kX, dX) :: l2 ++ (kH, dH) :: l3)).order = p ++ kH :: kX :: s := by
  intro l1 l2 l3 kH kX x dH dX hwf hdHb hcleanH hdXnv hcleanX hx4 huniqH huniqX
  have hdHnv : dH.type ≠ PropKind.VARIANT := by rw [hdHb]; intro hc; cases hc
  -- the two items of interest
  have hothers :
      (mkItems (l1 ++ (kX, dX) :: l2 ++ (kH, dH) :: l3)).filter
          (fun i => i.type ≠ PropKind.VARIANT) =
        ((mkItems l1).filter (fun i => i.type ≠ PropKind.VARIANT)) ++
          ({ key := kX, type := dX.type, name := cleanPropName kX } : Item) ::
            (((mkItems l2).filter (fun i => i.type ≠ PropKind.VARIANT)) ++
              ({ key := kH, type := dH.type, name := cleanPropName kH } : Item) ::
                ((mkItems l3).filter (fun i => i.type ≠ PropKind.VARIANT))) := by
    unfold mkItems
    simp only [List.map_append, List.map_cons, List.filter_append, List.filter_cons]
    simp [hdXnv, hdHnv]
  -- key distinctness facts from well-formedness
  have hkeys : (l1 ++ (kX, dX) :: l2 ++ (kH, dH) :: l3).map Prod.fst =
      l1.map Prod.fst ++ kX :: (l2.map Prod.fst ++ kH :: l3.map Prod.fst) := by
    simp
  have hwf' := hwf
  unfold wellFormedDefs at hwf'
  rw [hkeys] at hwf'
  have hnd := List.nodup_append.1 hwf'
  have hkXnotl1 : kX ∉ l1.map Prod.fst := by
    intro hc
    exact hnd.2.2 hc (List.mem_cons_self _ _)
  have hkHnotl1 : kH ∉ l1.map Prod.fst := by
    intro hc
    exact hnd.2.2 hc (List.mem_cons_of_mem _
      (List.mem_append_right _ (List.mem_cons_self _ _)))
  -- shorthand for the `others` list
  set others := (mkItems (l1 ++ (kX, dX) :: l2 ++ (kH, dH) :: l3)).filter
      (fun i => i.type ≠ PropKind.VARIANT) with hoth
  have hX : ({ key := kX, type := dX.type, name := cleanPropName kX } : Item) ∈ others := by
    rw [hothers]
    exact List.mem_append_right _ (List.mem_cons_self _ _)
  have hHmem : ({ key := kH, type := dH.type, name := cleanPropName kH } : Item) ∈ others := by
    rw [hothers]
    exact List.mem_append_right _ (List.mem_cons_of_mem _
      (List.mem_append_right _ (List.mem_cons_self _ _)))
  have hall : (keysOf others).Nodup := by
    apply List.Nodup.sublist _ (show ((l1 ++ (kX, dX) :: l2 ++ (kH, dH) :: l3).map
        Prod.fst).Nodup from hwf)
    rw [← mkItems_keys]
    exact List.Sublist.map _ (List.filter_sublist _)
  have hnames : ∀ it ∈ others, it.name = cleanPropName it.key := by
    intro it hit
    have hit' : it ∈ mkItems (l1 ++ (kX, dX) :: l2 ++ (kH, dH) :: l3) :=
      (List.mem_filter.1 hit).1
    rcases List.mem_map.1 hit' with ⟨q, _, rfl⟩
    rfl
  have hH : hasLookup others (cleanPropName kX) = some kH := by
    rw [hcleanX]
    exact hasLookup_unique hHmem rfl (by simp [hcleanH]) huniqH
  have hpull : ∀ b hk, hasLookup others b = some hk → hk = kH →
      b = ({ key := kX, type := dX.type, name := cleanPropName kX } : Item).name := by
    intro b hk hlkb hkeq
    rcases hasLookup_eq_some hlkb with ⟨itm, hitm, hkeym, _, hdropm⟩
    have hnm := hnames itm hitm
    have hkey : itm.key = kH := by rw [hkeym, hkeq]
    have hnameeq : itm.name = hasPrefixStr ++ x := by rw [hnm, hkey, hcleanH]
    have : b = x := by rw [← hdropm, hnameeq, drop_append_has]
    simp only [this, hcleanX]
  have hXo1 : ({ key := kX, type := dX.type, name := cleanPropName kX } : Item).key ∉
      keysOf ((mkItems l1).filter (fun i => i.type ≠ PropKind.VARIANT)) := by
    intro hc
    exact hkXnotl1 (keysOf_filter_subset_keys l1 hc)
  have hHo1 : kH ∉ keysOf ((mkItems l1).filter (fun i => i.type ≠ PropKind.VARIANT)) := by
    intro hc
    exact hkHnotl1 (keysOf_filter_subset_keys l1 hc)
  have hnamel1 : ∀ it ∈ (mkItems l1).filter (fun i => i.type ≠ PropKind.VARIANT),
      it.name ≠ ({ key := kX, type := dX.type, name := cleanPropName kX } : Item).name := by
    intro it hit hc
    have hit' : it ∈ mkItems l1 := (List.mem_filter.1 hit).1
    rcases List.mem_map.1 hit' with ⟨q, hq, rfl⟩
    simp only at hc
    rw [hcleanX] at hc
    have hq1 : q.1 = kX := huniqX q (by simp [hq]) hc
    exact hkXnotl1 (List.mem_map.2 ⟨q, hq, hq1⟩)
  rcases orderOthers_pairing hall hnames hX (by simpa [hcleanX] using hx4) hH hpull
      ((mkItems l1).filter (fun i => i.type ≠ PropKind.VARIANT))
      (((mkItems l2).filter (fun i => i.type ≠ PropKind.VARIANT)) ++
        ({ key := kH, type := dH.type, name := cleanPropName kH } : Item) ::
          ((mkItems l3).filter (fun i => i.type ≠ PropKind.VARIANT)))
      [] (by simp) (by simp) hXo1 hHo1 hnamel1 with ⟨p, s, hps⟩
  refine ⟨((mkItems (l1 ++ (kX, dX) :: l2 ++ (kH, dH) :: l3)).filter
      (fun i => i.type = PropKind.VARIANT)).map Item.key ++ p, s, ?_, ?_⟩
  · show heuristicKeys (l1 ++ (kX, dX) :: l2 ++ (kH, dH) :: l3) = _
    unfold heuristicKeys
    rw [← hoth]
    nth_rewrite 2 [hothers]
    rw [hps]
    simp
  · show heuristicKeys (l1 ++ (kX, dX) :: l2 ++ (kH, dH) :: l3) = _
    unfold heuristicKeys
    rw [← hoth]
    nth_rewrite 2 [hothers]
    rw [hps]
    simp

/-- `a` is immediately followed by `b` somewhere in `l`. -/
def adjacentIn (a b : Str) (l : List Str) : Bool :=
  (l.zip l.tail).any (fun q => q.1 = a && q.2 = b)

theorem adjacentIn_cons {a b c : Str} {l : List Str} (h : adjacentIn a b l = true) :
    adjacentIn a b (c :: l) = true := by
  unfold adjacentIn at h ⊢
  cases l with
  | nil => simp at h
  | cons h1 t1 =>
    simp only [List.tail_cons, List.zip_cons_cons, List.any_cons] at h ⊢
    simp [h]

theorem adjacentIn_of_eq_append {a b : Str} :
    ∀ (p : List Str) {l s : List Str}, l = p ++ a :: b :: s → adjacentIn a b l = true := by
  intro p
  induction p with
  | nil =>
    intro l s h
    subst h
    simp [adjacentIn]
  | cons c t ih =>
    intro l s h
    subst h
    exact adjacentIn_cons (ih rfl)

def c3cexDefs : List (Str × RawDef) :=
  [(str "Has X", rawBool), (str "Y", rawText), (str "X", rawText)]

/-- C3 (counterexample): the input contains the Boolean key `"Has X"` and the
key `"X"`, but because `"Has X"` precedes `"X"` in the input (with `"Y"` in
between) the produced order is `Has X, Y, X`: the `"Has X"` key does *not*
immediately precede the `"X"` key, refuting "regardless of the two keys'
relative positions in the input". -/
theorem C3_has_pairing_cex :
    ((str "Has X", rawBool) ∈ c3cexDefs ∧ rawBool.type = PropKind.BOOLEAN
        ∧ cleanPropName (str "Has X") = hasPrefixStr ++ str "X"
        ∧ (str "X", rawText) ∈ c3cexDefs ∧ cleanPropName (str "X") = str "X"
        ∧ wellFormedDefs c3cexDefs)
      ∧ (collectFromDefs buildDefSet c3cexDefs).order = [str "Has X", str "Y", str "X"]
      ∧ ¬ ∃ p s, (collectFromDefs buildDefSet c3cexDefs).order =
          p ++ (str "Has X") :: (str "X") :: s := by
  refine ⟨by decide, by decide, ?_⟩
  rintro ⟨p, s, h⟩
  have := adjacentIn_of_eq_append p h
  exact absurd this (by decide)

theorem C3_has_pairing_witness :
    (wellFormedDefs
        ([] ++ (str "X", rawText) :: [(str "Z", rawText)] ++ (str "Has X", rawBool) :: [])
      ∧ rawBool.type = PropKind.BOOLEAN
      ∧ cleanPropName (str "Has X") = hasPrefixStr ++ str "X"
      ∧ rawText.type ≠ PropKind.VARIANT
      ∧ cleanPropName (str "X") = str "X"
      ∧ (str "X").take 4 ≠ hasPrefixStr)
      ∧ ∃ p s,
        (collectFromDefs buildDefSet
            ([] ++ (str "X", rawText) :: [(str "Z", rawText)] ++
              (str "Has X", rawBool) :: [])).order = p ++ (str "Has X") :: (str "X") :: s
          ∧ (collectFromDefs buildDefComponent
            ([] ++ (str "X", rawText) :: [(str "Z", rawText)] ++
              (str "Has X", rawBool) :: [])).order = p ++ (str "Has X") :: (str "X") :: s :=
  ⟨⟨by decide, by decide, by decide, by decide, by decide, by decide⟩,
    C3_has_pairing [] [(str "Z", rawText)] [] (str "Has X") (str "X") (str "X")
      rawBool rawText (by decide) (by decide) (by decide) (by decide) (by decide)
      (by decide) (by decide) (by decide)⟩

/-! ### Identifier resolution (canonical backend, with timeout and dedupe) -/

/-- The host lookup `withTimeout(figma.getNodeByIdAsync(id))` followed by the
`'name' in node` check: `some name` when a node is found in time and carries a
name, `none` on a missing node, an exception, or a timeout. -/
def NameEnv := Str → Option Str

/-- `async function resolveSwapName(id)`: only a nonempty string id is looked
up; everything else resolves to `null`. -/
def resolveSwapName (env : NameEnv) (id : Option DefVal) : Option Str :=
  match id with
  | some (DefVal.sval s) => if s = [] then none else env s
  | _ => none

/-- `function extractNodeIdFromPreferred(val)`: a plain string, else the first
string-valued field among `id`, `value`, `nodeId`. -/
def extractNodeIdFromPreferred : PrefVal → Option Str
  | PrefVal.strv s => some s
  | PrefVal.objv i v n =>
    match i with
    | some s => some s
    | none =>
      match v with
      | some s => some s
      | none => n
  | PrefVal.otherv => none

/-- The loop body of `async function resolvePreferredInstanceNames(pref)`
(canonical version, `src/code.ts` lines 598–614): the second argument is the
`seen` set; `if (!id) continue`, `if (name && !seen.has(name))` push. -/
def resolvePreferredAux (env : NameEnv) : List PrefVal → List Str → List Str
  | [], _seen => []
  | item :: rest, seen =>
    match extractNodeIdFromPreferred item with
    | none => resolvePreferredAux env rest seen
    | some id =>
      if id = [] then resolvePreferredAux env rest seen
      else
        match env id with
        | none => resolvePreferredAux env rest seen
        | some n =>
          if n ≠ [] ∧ n ∉ seen then n :: resolvePreferredAux env rest (n :: seen)
          else resolvePreferredAux env rest seen

/-- `async function resolvePreferredInstanceNames(pref)`. -/
def resolvePreferredInstanceNames (env : NameEnv) (pref : List PrefVal) : List Str :=
  resolvePreferredAux env pref []

/-- Modelled from the spec's words, for comparison with the implementation:
the name one entry resolves to, `none` when it fails (no id, empty id, failed
or timed-out lookup, empty name). -/
def resolveOneName (env : NameEnv) (item : PrefVal) : Option Str :=
  match extractNodeIdFromPreferred item with
  | none => none
  | some id =>
    if id = [] then none
    else
      match env id with
      | none => none
      | some n => if n = [] then none else some n

/-- Modelled from the spec's words, for comparison with the implementation:
keep the first occurrence of each name, dropping later duplicates. -/
def dedupeKeepFirst : List Str → List Str
  | [] => []
  | n :: rest => n :: dedupeKeepFirst (rest.filter (fun m => m ≠ n))
termination_by l => l.length
decreasing_by
  simp only [List.length_cons]
  exact Nat.lt_succ_of_le (List.length_filter_le _ _)

/-- Deduplication with an explicit already-seen set. -/
def dedupeSeen : List Str → List Str → List Str
  | [], _ => []
  | n :: rest, seen =>
    if n ∈ seen then dedupeSeen rest seen else n :: dedupeSeen rest (n :: seen)

theorem dedupeSeen_filter : ∀ (l seen : List Str),
    dedupeSeen l seen = dedupeKeepFirst (l.filter (fun m => m ∉ seen)) := by
  intro l
  induction l with
  | nil => intro seen; simp [dedupeSeen, dedupeKeepFirst]
  | cons n rest ih =>
    intro seen
    simp only [dedupeSeen, List.filter_cons]
    by_cases hn : n ∈ seen
    · rw [if_pos hn]
      have : (decide ¬n ∈ seen) = false := by simp [hn]
      rw [this]
      simp only [Bool.false_eq_true, if_false]
      exact ih seen
    · rw [if_neg hn]
      have : (decide ¬n ∈ seen) = true := by simp [hn]
      rw [this]
      simp only [if_true]
      rw [dedupeKeepFirst]
      congr 1
      rw [ih (n :: seen)]
      congr 1
      rw [List.filter_filter]
      apply List.filter_congr
      intro a _
      by_cases h1 : a = n <;> by_cases h2 : a ∈ seen <;> simp [h1, h2]

theorem resolvePreferredAux_eq (env : NameEnv) :
    ∀ (pref : List PrefVal) (seen : List Str),
      resolvePreferredAux env pref seen =
        dedupeSeen (pref.filterMap (resolveOneName env)) seen := by
  intro pref
  induction pref with
  | nil => intro seen; rfl
  | cons item rest ih =>
    intro seen
    rcases hx : extractNodeIdFromPreferred item with _ | id
    · simp [resolvePreferredAux, resolveOneName, hx, ih]
    · by_cases hid : id = []
      · simp [resolvePreferredAux, resolveOneName, hx, hid, ih]
      · rcases he : env id with _ | n
        · simp [resolvePreferredAux, resolveOneName, hx, hid, he, ih]
        · by_cases hn : n = []
          · simp [resolvePreferredAux, resolveOneName, hx, hid, he, hn, ih]
          · by_cases hseen : n ∈ seen
            · simp [resolvePreferredAux, resolveOneName, hx, hid, he, hn, hseen, ih,
                dedupeSeen]
            · simp [resolvePreferredAux, resolveOneName, hx, hid, he, hn, hseen, ih,
                dedupeSeen]

/-- C6: for every list of preferred references, the canonical
`resolvePreferredInstanceNames` resolves entries sequentially in the list's
original order, keeps the resulting names in that order, removes duplicate
names keeping only the first occurrence, and skips entries that fail to
resolve without inserting placeholders — it equals first-occurrence
deduplication of the in-order sequence of successfully resolved names. -/
theorem C6_preferred_resolution :
    ∀ (env : NameEnv) (pref : List PrefVal),
      resolvePreferredInstanceNames env pref =
        dedupeKeepFirst (pref.filterMap (resolveOneName env)) := by
  intro env pref
  rw [resolvePreferredInstanceNames, resolvePreferredAux_eq, dedupeSeen_filter]
  congr 1
  conv_rhs => rw [← List.filter_true (pref.filterMap (resolveOneName env))]
  apply List.filter_congr
  intro a _
  simp

/-! ### Rendering -/

/-- `type Target` — a resolved analysis target (the both-null case is handled
before either renderer runs). -/
inductive Target
  | setT (s : ComponentSetModel)
  | componentT (c : ComponentModel)
deriving DecidableEq

def targetName : Target → Str
  | Target.setT s => s.name
  | Target.componentT c => c.name

/-- `isSet ? collectComponentPropsWithOrder(set) : collectPropsFromComponent(component)`. -/
def targetCollect : Target → CollectResult
  | Target.setT s => collectComponentPropsWithOrder s
  | Target.componentT c => collectPropsFromComponent c

/-- `isSet ? set.children.filter(n => n.type === 'COMPONENT').length : 1`. -/
def targetVariantCount : Target → Nat
  | Target.setT s => (childComponents s).length
  | Target.componentT _ => 1

def natToStr (n : Nat) : Str := (Nat.repr n).data

/-- JavaScript `String(v)` on the modelled raw values. -/
def showDefVal : DefVal → Str
  | DefVal.bval b => if b then str "true" else str "false"
  | DefVal.sval s => s
  | DefVal.nval n => (toString n).data
  | DefVal.nullv => str "null"
  | DefVal.otherv => str "[object Object]"

def propKindStr : PropKind → Str
  | PropKind.BOOLEAN => str "BOOLEAN"
  | PropKind.TEXT => str "TEXT"
  | PropKind.NUMBER => str "NUMBER"
  | PropKind.INSTANCE_SWAP => str "INSTANCE_SWAP"
  | PropKind.VARIANT => str "VARIANT"

/-- `kind.replace('_', ' ')` (first occurrence only). -/
def propKindMdStr : PropKind → Str
  | PropKind.INSTANCE_SWAP => str "INSTANCE SWAP"
  | k => propKindStr k

/-- The preferred names resolved from the stored raw list, `[]` when absent. -/
def prefFromRaw (env : NameEnv) (d : PropDefLite) : List Str :=
  match d.preferredValuesRaw with
  | some raw => resolvePreferredInstanceNames env raw
  | none => []

/-- The markdown path's preferred-name choice: a nonempty stored
`preferredInstanceNames` wins, otherwise resolve the raw list. -/
def mdPrefNames (env : NameEnv) (d : PropDefLite) : List Str :=
  match d.preferredInstanceNames with
  | some l => if l ≠ [] then l else prefFromRaw env d
  | none => prefFromRaw env d

/-- The `Default:` line of a TEXT/NUMBER stanza: only when the default is
present, not null, and not empty once stringified. -/
def mdDefaultTextNumber (d : PropDefLite) : List Str :=
  match d.defaultValue with
  | none => []
  | some DefVal.nullv => []
  | some v => if showDefVal v = [] then [] else [str "Default: " ++ showDefVal v]

/-- The raw-string fallback `Default:` line of an INSTANCE_SWAP stanza. -/
def mdSwapRawDefault (d : PropDefLite) : List Str :=
  match d.defaultValue with
  | some (DefVal.sval s) => if s ≠ [] then [str "Default: " ++ s] else []
  | _ => []

/-- The body of an INSTANCE_SWAP stanza. -/
def mdSwapLines (env : NameEnv) (d : PropDefLite) : List Str :=
  (match resolveSwapName env d.defaultValue with
    | some n => if n ≠ [] then [str "Default: " ++ n] else mdSwapRawDefault d
    | none => mdSwapRawDefault d) ++
  (if mdPrefNames env d ≠ [] then
    [str "Preferred Instances (" ++ natToStr (mdPrefNames env d).length ++ str "): " ++
      List.intercalate (str ", ") (mdPrefNames env d)]
  else
    match d.preferredValuesCount with
    | some c => [str "Preferred Instances (" ++ natToStr c ++ str ")"]
    | none => [])

/-- One property stanza of `toMarkdownTarget` (title line, kind-specific
lines, blank separator); a key with no stored definition is skipped. -/
def mdLinesForKey (env : NameEnv) (r : CollectResult) (k : Str) : List Str :=
  match r.defs.lookup k with
  | none => []
  | some d =>
    (str "[" ++ propKindMdStr d.type ++ str "] **" ++ d.name ++ str "**  ") ::
    (match d.type with
      | PropKind.BOOLEAN =>
        str "Values: True / False" ::
          (match d.defaultValue with
            | some (DefVal.bval b) => [str "Default: " ++ showDefVal (DefVal.bval b)]
            | _ => [])
      | PropKind.TEXT => mdDefaultTextNumber d
      | PropKind.NUMBER => mdDefaultTextNumber d
      | PropKind.INSTANCE_SWAP => mdSwapLines env d
      | PropKind.VARIANT =>
        match d.variantOptions with
        | some vals =>
          if vals.length ≠ 0 then [str "Values: " ++ List.intercalate (str ", ") vals]
          else []
        | none => []) ++ [str ""]

/-- The line list built by `async function toMarkdownTarget(target)`. -/
def mdLines (env : NameEnv) (t : Target) : List Str :=
  [str "# " ++ targetName t, str "", str "## Overview",
   str "- Variants: " ++ natToStr (targetVariantCount t),
   str "- Component Properties: " ++ natToStr (targetCollect t).order.length,
   str "", str "## Component Props"] ++
  ((targetCollect t).order.flatMap (mdLinesForKey env (targetCollect t)))

/-- `lines.join('\n')`. -/
def toMarkdownTarget (env : NameEnv) (t : Target) : Str :=
  List.intercalate (str "\n") (mdLines env t)

/-- A JSON scalar as emitted in the pretty projection; `jnull` is a literal
`null`, `jother` an opaque non-scalar raw value. -/
inductive JVal
  | jnull
  | jstr (s : Str)
  | jbool (b : Bool)
  | jnum (n : Int)
  | jother
deriving DecidableEq

def jvalOfDef : DefVal → JVal
  | DefVal.bval b => JVal.jbool b
  | DefVal.sval s => JVal.jstr s
  | DefVal.nval n => JVal.jnum n
  | DefVal.nullv => JVal.jnull
  | DefVal.otherv => JVal.jother

/-- `type PrettyProp` — `none` in an `Option` field means the field is absent
from the emitted record; `some JVal.jnull` in `defaultField` means the record
carries a literal `null` (the field is called `default` in the source). -/
structure PrettyProp where
  name : Str
  typeName : Str
  defaultField : Option JVal := none
  preferredInstancesCount : Option Nat := none
  preferredInstances : Option (List Str) := none
  values : Option (List Str) := none
deriving DecidableEq

/-- `resolved || (typeof d.defaultValue === 'string' ? d.defaultValue : null)`
when `resolved` is falsy. -/
def prettySwapFallback (d : PropDefLite) : JVal :=
  match d.defaultValue with
  | some (DefVal.sval s) => JVal.jstr s
  | _ => JVal.jnull

/-- The JSON path's preferred-name choice: any stored array (even empty)
wins, otherwise resolve the raw list. -/
def prettyPrefNames (env : NameEnv) (d : PropDefLite) : List Str :=
  match d.preferredInstanceNames with
  | some l => l
  | none => prefFromRaw env d

/-- One record of the `pretty.componentProps` projection in
`toJSONSummaryTarget`. -/
def prettyOf (env : NameEnv) (k : Str) (dOpt : Option PropDefLite) : PrettyProp :=
  match dOpt with
  | none => { name := k, typeName := str "UNKNOWN" }
  | some d =>
    match d.type with
    | PropKind.BOOLEAN =>
      { name := d.name, typeName := propKindStr d.type
        defaultField := d.defaultValue.map jvalOfDef }
    | PropKind.TEXT =>
      { name := d.name, typeName := propKindStr d.type
        defaultField := d.defaultValue.map jvalOfDef }
    | PropKind.NUMBER =>
      { name := d.name, typeName := propKindStr d.type
        defaultField := d.defaultValue.map jvalOfDef }
    | PropKind.INSTANCE_SWAP =>
      { name := d.name, typeName := propKindStr d.type
        defaultField := some
          (match resolveSwapName env d.defaultValue with
            | some n => if n ≠ [] then JVal.jstr n else prettySwapFallback d
            | none => prettySwapFallback d)
        preferredInstancesCount := d.preferredValuesCount
        preferredInstances :=
          if (prettyPrefNames env d).length > 0 then some (prettyPrefNames env d) else none }
    | PropKind.VARIANT =>
      { name := d.name, typeName := propKindStr d.type
        values := d.variantOptions }

/-- The structured document payload of `async function toJSONSummaryTarget`
(the source then emits it through `JSON.stringify`, which is injective
presentation and not modelled). -/
structure JsonSummary where
  name : Str
  variantsCount : Nat
  componentPropsCount : Nat
  componentProps : List PropDefLite
  prettyProps : List PrettyProp
deriving DecidableEq

def toJSONSummaryTarget (env : NameEnv) (t : Target) : JsonSummary :=
  { name := targetName t
    variantsCount := targetVariantCount t
    componentPropsCount := (targetCollect t).order.length
    componentProps := (targetCollect t).order.filterMap
      (fun k => ((targetCollect t).defs).lookup k)
    prettyProps := (targetCollect t).order.map
      (fun k => prettyOf env k (((targetCollect t).defs).lookup k)) }

/-! ### Claim C7: the pretty projection -/

def rawSwapNoDefault : RawDef :=
  { type := PropKind.INSTANCE_SWAP, defaultValue := none
    preferredValues := none, variantOptions := none }

def c7comp : ComponentModel :=
  { name := str "Icon", componentPropertyDefinitions := some [(str "Swap", rawSwapNoDefault)] }

def rawTextEmptyDefault : RawDef :=
  { type := PropKind.TEXT, defaultValue := some (DefVal.sval [])
    preferredValues := none, variantOptions := none }

def rawVariantEmptyOptions : RawDef :=
  { type := PropKind.VARIANT, defaultValue := none
    preferredValues := none, variantOptions := some [] }

def c7comp2 : ComponentModel :=
  { name := str "Field"
    componentPropertyDefinitions :=
      some [(str "Text", rawTextEmptyDefault), (str "Options", rawVariantEmptyOptions)] }

/-- A lookup environment in which every lookup misses (or times out). -/
def envNone : NameEnv := fun _ => none

/-- C7 (counterexample): the pretty projection does emit null and empty field
values — an INSTANCE_SWAP property with no default and no resolvable name
yields `default: null`; a TEXT property whose raw default is the empty string
yields `default: ""` rather than omitting the field; a VARIANT property whose
option array is empty yields `values: []` rather than omitting the field. -/
theorem C7_pretty_cex :
    (toJSONSummaryTarget envNone (Target.componentT c7comp)).prettyProps.map
        PrettyProp.defaultField = [some JVal.jnull]
      ∧ (toJSONSummaryTarget envNone (Target.componentT c7comp2)).prettyProps.map
          (fun p => (p.defaultField, p.values)) =
        [(none, some []), (some (JVal.jstr []), none)] := by
  constructor
  · decide
  · decide

/-- The amended shape of one pretty record: only kind-meaningful fields are
present, but present fields copy the raw value verbatim — empties included.
A Boolean/Text/Number `default` is present exactly when the raw default
exists and equals it verbatim (an empty-string TEXT default is emitted as
`""`, a raw literal-`null` default as `null`); a VARIANT `values` equals the
raw option array whenever one is stored, so an empty array is emitted as
`[]`; an INSTANCE_SWAP `default` is always present and is a literal `null`
exactly when no non-empty name resolves and the raw default is not a string,
its preferred count mirrors the raw count field, and only its preferred-name
list is dropped when empty. -/
def prettyKindClean (env : NameEnv) (k : Str) (d : PropDefLite) : Prop :=
  (d.type = PropKind.VARIANT →
      (prettyOf env k (some d)).defaultField = none
        ∧ (prettyOf env k (some d)).preferredInstancesCount = none
        ∧ (prettyOf env k (some d)).preferredInstances = none
        ∧ (prettyOf env k (some d)).values = d.variantOptions)
  ∧ ((d.type = PropKind.BOOLEAN ∨ d.type = PropKind.TEXT ∨ d.type = PropKind.NUMBER) →
      (prettyOf env k (some d)).values = none
        ∧ (prettyOf env k (some d)).preferredInstancesCount = none
        ∧ (prettyOf env k (some d)).preferredInstances = none
        ∧ ((prettyOf env k (some d)).defaultField = none ↔ d.defaultValue = none)
        ∧ (∀ v, d.defaultValue = some v →
            (prettyOf env k (some d)).defaultField = some (jvalOfDef v))
        ∧ (d.defaultValue ≠ some DefVal.nullv →
            (prettyOf env k (some d)).defaultField ≠ some JVal.jnull))
  ∧ (d.type = PropKind.INSTANCE_SWAP →
      (prettyOf env k (some d)).values = none
        ∧ (prettyOf env k (some d)).preferredInstancesCount = d.preferredValuesCount
        ∧ (∀ l, (prettyOf env k (some d)).preferredInstances = some l → l ≠ [])
        ∧ ∃ v, (prettyOf env k (some d)).defaultField = some v
            ∧ (v = JVal.jnull ↔
                ((∀ n, resolveSwapName env d.defaultValue = some n → n = [])
                  ∧ ∀ s, d.defaultValue ≠ some (DefVal.sval s))))

theorem prettySwapFallback_eq_jnull (d : PropDefLite) :
    prettySwapFallback d = JVal.jnull ↔ ∀ s, d.defaultValue ≠ some (DefVal.sval s) := by
  unfold prettySwapFallback
  rcases hdv : d.defaultValue with _ | v
  · constructor
    · intro _ s hs
      cases hs
    · intro _
      rfl
  · cases v with
    | sval s =>
      constructor
      · intro hv
        cases hv
      · intro hall
        exact absurd rfl (hall s)
    | bval b =>
      constructor
      · intro _ s hs
        cases hs
      · intro _
        rfl
    | nval m =>
      constructor
      · intro _ s hs
        cases hs
      · intro _
        rfl
    | nullv =>
      constructor
      · intro _ s hs
        cases hs
      · intro _
        rfl
    | otherv =>
      constructor
      · intro _ s hs
        cases hs
      · intro _
        rfl

/-- C7 (amended): every pretty record contains only the fields meaningful for
its kind, but a present field copies the raw value verbatim, empties
included: a Boolean/Text/Number `default` is present iff the raw default
exists and equals it (an empty-string TEXT default is emitted as `""`, a raw
literal-`null` default as `null`); a VARIANT `values` equals the stored
option array whenever one exists, so an empty array is emitted as `[]`; an
INSTANCE_SWAP `default` is always present and is a literal `null` exactly
when no non-empty name resolves and the raw default is not a string, its
preferred count mirrors the raw count, and only its preferred-name list is
omitted when empty. -/
theorem C7_pretty_projection :
    ∀ (env : NameEnv) (k : Str) (d : PropDefLite), prettyKindClean env k d := by
  intro env k d
  unfold prettyKindClean
  refine ⟨?_, ?_, ?_⟩
  · intro ht
    simp only [prettyOf, ht]
    exact ⟨trivial, trivial, trivial, trivial⟩
  · rintro (ht | ht | ht) <;>
      (simp only [prettyOf, ht]
       refine ⟨trivial, trivial, trivial, ?_, ?_, ?_⟩
       · constructor
         · intro h
           rcases hdv : d.defaultValue with _ | v
           · rfl
           · rw [hdv] at h
             simp at h
         · intro h
           rw [h]
           rfl
       · intro v hv
         rw [hv]
         rfl
       · intro hnn hc
         rcases hdv : d.defaultValue with _ | v
         · rw [hdv] at hc
           simp at hc
         · rw [hdv] at hc
           simp only [Option.map_some', Option.some.injEq] at hc
           cases v with
           | nullv => exact hnn (by rw [hdv])
           | bval b => simp [jvalOfDef] at hc
           | sval s => simp [jvalOfDef] at hc
           | nval n => simp [jvalOfDef] at hc
           | otherv => simp [jvalOfDef] at hc)
  · intro ht
    simp only [prettyOf, ht]
    refine ⟨trivial, trivial, ?_, ?_⟩
    · intro l hl
      by_cases hlen : (prettyPrefNames env d).length > 0
      · rw [if_pos hlen] at hl
        intro hnil
        rw [Option.some.injEq] at hl
        rw [hl] at hlen
        rw [hnil] at hlen
        simp at hlen
      · rw [if_neg hlen] at hl
        cases hl
    · refine ⟨_, rfl, ?_⟩
      rcases hr : resolveSwapName env d.defaultValue with _ | n
      · show prettySwapFallback d = JVal.jnull ↔ _
        rw [prettySwapFallback_eq_jnull]
        constructor
        · intro hB
          exact ⟨fun m hm => Option.noConfusion hm, hB⟩
        · exact fun hAB => hAB.2
      · show (if n ≠ [] then JVal.jstr n else prettySwapFallback d) = JVal.jnull ↔ _
        by_cases hn : n ≠ []
        · rw [if_pos hn]
          constructor
          · intro hv
            cases hv
          · rintro ⟨hres, _⟩
            exact absurd (hres n rfl) hn
        · rw [if_neg hn]
          push_neg at hn
          rw [prettySwapFallback_eq_jnull]
          constructor
          · intro hB
            refine ⟨?_, hB⟩
            intro m hm
            injection hm with h
            rw [← h]
            exact hn
          · exact fun hAB => hAB.2

/-! ### Batch pipeline and message handler -/

/-- `'md' | 'json'`. -/
inductive Fmt
  | md
  | json
deriving DecidableEq

/-- The module-level mutable state of the canonical backend:
`__exportScanCache`, `__exportScanFormat`, `__busy`, `__scanAllowed`. -/
structure PluginState where
  exportScanCache : List ComponentSetModel
  exportScanFormat : Option Fmt
  busy : Bool
  scanAllowed : Bool
deriving DecidableEq

/-- One entry of the aggregate JSON `items` array: a parsed per-target
document or a failure record. -/
inductive JsonItem
  | docItem (j : JsonSummary)
  | errItem (name : Str) (error : Str)
deriving DecidableEq

/-- `'# ' + name + '\n\n> ⚠️ Failed to generate this Component Set. Skipped.'`. -/
def mdFailurePlaceholder (name : Str) : Str :=
  str "# " ++ name ++ str "\n\n> ⚠️ Failed to generate this Component Set. Skipped."

def jsonFailureMsg : Str := str "Failed to generate this Component Set"

/-- The per-item try/catch loop of `streamGenerateAll` (markdown branch) and
`exportAllMarkdown`, abstracted over a per-item generator that may throw. -/
def streamGenerateAllMdParts (gen : ComponentSetModel → Except Unit Str)
    (sets : List ComponentSetModel) : List Str :=
  sets.map (fun s =>
    match gen s with
    | Except.ok md => md
    | Except.error _ => mdFailurePlaceholder s.name)

/-- The per-item try/catch loop of `streamGenerateAll` (json branch) and
`exportAllJSON`, abstracted over a per-item generator that may throw. -/
def streamGenerateAllJsonItems (gen : ComponentSetModel → Except Unit JsonSummary)
    (sets : List ComponentSetModel) : List JsonItem :=
  sets.map (fun s =>
    match gen s with
    | Except.ok j => JsonItem.docItem j
    | Except.error _ => JsonItem.errItem s.name jsonFailureMsg)

/-- The aggregate JSON payload `{ document, count, items }`. -/
structure JsonAggregate where
  document : Str
  count : Nat
  items : List JsonItem
deriving DecidableEq

/-- The `content` of a `gen-complete` message. -/
inductive AggContent
  | mdAgg (content : Str)
  | jsonAgg (payload : JsonAggregate)
deriving DecidableEq

/-- The `output` of a `generation-result` message. -/
inductive GenOut
  | mdOut (content : Str)
  | jsonOut (doc : JsonSummary)
  | emptyOut
deriving DecidableEq

/-- Messages the backend posts to the UI (the camelCase aliases automatically
sent by `post` are collapsed; filename/mime fields of downloads are
file-save mechanics and not modelled). -/
inductive OutMsg
  | statusMsg (message : Str)
  | busyMsg (value : Bool)
  | scanStart (total : Nat)
  | setsCount (count : Nat)
  | scanTick (index total : Nat) (name : Str)
  | scanComplete (total : Nat) (format : Fmt)
  | genStart (total : Nat)
  | genTick (index total : Nat) (name : Str)
  | genComplete (content : AggContent) (format : Fmt)
  | generationResult (format : Option Fmt) (output : GenOut)
  | selectionInfo (name : Str) (variantCount propsCount : Nat)
  | copyPayload (md : Str) (json : Option JsonSummary)
deriving DecidableEq

/-- The host world a request executes against.  `scanThrows` / `genAllThrows`
model `streamScan` / `streamGenerateAll` raising at their start (the failure
exit paths of the surrounding try/finally blocks). -/
structure HostEnv where
  selection : Option Target
  workspaceSets : List ComponentSetModel
  nameEnv : NameEnv
  rootName : Str
  scanThrows : Bool
  genAllThrows : Bool

def scanTicks (sets : List ComponentSetModel) : List OutMsg :=
  sets.enum.map (fun p => OutMsg.scanTick (p.1 + 1) sets.length p.2.name)

def genTicks (sets : List ComponentSetModel) : List OutMsg :=
  sets.enum.map (fun p => OutMsg.genTick (p.1 + 1) sets.length p.2.name)

/-- `async function streamScan(format)`: cache the discovered sets, record the
format, emit start/count/ticks/complete. -/
def streamScanRun (env : HostEnv) (fmt : Fmt) (st : PluginState) :
    PluginState × List OutMsg :=
  ({ st with exportScanCache := env.workspaceSets, exportScanFormat := some fmt },
    OutMsg.scanStart env.workspaceSets.length ::
      OutMsg.setsCount env.workspaceSets.length ::
      scanTicks env.workspaceSets ++
      [OutMsg.scanComplete env.workspaceSets.length fmt])

def mdSeparator : Str := str "\n\n---\n\n"

/-- `figma.root.name || 'Untitled'`. -/
def rootDocName (env : HostEnv) : Str :=
  if env.rootName = [] then str "Untitled" else env.rootName

/-- `async function streamGenerateAll(format)` over the cached sets, with the
total in-handler renderers plugged into the abstract per-item loops. -/
def streamGenerateAllRun (env : HostEnv) (fmt : Fmt) (st : PluginState) :
    PluginState × List OutMsg :=
  ({ st with exportScanFormat := none },
    OutMsg.genStart st.exportScanCache.length ::
      genTicks st.exportScanCache ++
      [OutMsg.genComplete
        (match fmt with
          | Fmt.md => AggContent.mdAgg (List.intercalate mdSeparator
              (streamGenerateAllMdParts
                (fun s => Except.ok (toMarkdownTarget env.nameEnv (Target.setT s)))
                st.exportScanCache))
          | Fmt.json => AggContent.jsonAgg
              { document := rootDocName env
                count := (streamGenerateAllJsonItems
                  (fun s => Except.ok (toJSONSummaryTarget env.nameEnv (Target.setT s)))
                  st.exportScanCache).length
                items := streamGenerateAllJsonItems
                  (fun s => Except.ok (toJSONSummaryTarget env.nameEnv (Target.setT s)))
                  st.exportScanCache })
        fmt])

def noSelectionName : Str := str "No selection detected"

/-- `async function sendSelectionInfoAsync()` (aliased posts collapsed). -/
def sendSelectionInfo (env : HostEnv) (st : PluginState) : List OutMsg :=
  if st.busy then []
  else
    match env.selection with
    | none =>
      [OutMsg.selectionInfo noSelectionName 0 0,
       OutMsg.statusMsg (str "⚠️ No valid selection. Select a Component, Instance or Component Set.")]
    | some t =>
      [OutMsg.selectionInfo (targetName t) (targetVariantCount t) (targetCollect t).order.length,
       OutMsg.statusMsg (str "✅ Selection detected.")]

/-- The requests the handler consumes (each constructor covers a kebab-case
message and its camelCase alias, whose handler bodies are identical). -/
inductive UIMsg
  | uiReady
  | uiScan (format : Option Fmt)
  | uiGenerateAll (format : Option Fmt)
  | uiGenerate (format : Option Fmt)
  | exportMd
  | exportJson
  | copyRequest
deriving DecidableEq

/-- The results posted by the single-selection `ui-generate` path: `'md' || no
format` posts the markdown result, `'json' || no format` posts the json one. -/
def genResults (env : HostEnv) (t : Target) (fmtOpt : Option Fmt) : List OutMsg :=
  (if fmtOpt = some Fmt.md ∨ fmtOpt = none then
    [OutMsg.generationResult (some Fmt.md) (GenOut.mdOut (toMarkdownTarget env.nameEnv t))]
  else []) ++
  (if fmtOpt = some Fmt.json ∨ fmtOpt = none then
    [OutMsg.generationResult (some Fmt.json) (GenOut.jsonOut (toJSONSummaryTarget env.nameEnv t))]
  else [])

/-- The `'export-md'` / `'export-json'` handler body: set `__busy` and
`__scanAllowed`, run `streamScan` then `streamGenerateAll`, and clear both
flags in the `finally` on every exit path. -/
def exportRun (env : HostEnv) (st : PluginState) (fmt : Fmt) (errMsg : Str) :
    PluginState × List OutMsg :=
  if env.scanThrows then
    ({ st with busy := false, scanAllowed := false },
      [OutMsg.busyMsg true, OutMsg.statusMsg errMsg, OutMsg.busyMsg false])
  else if env.genAllThrows then
    ({ (streamScanRun env fmt { st with busy := true, scanAllowed := true }).1 with
        busy := false, scanAllowed := false },
      OutMsg.busyMsg true ::
        (streamScanRun env fmt { st with busy := true, scanAllowed := true }).2 ++
        [OutMsg.statusMsg errMsg, OutMsg.busyMsg false])
  else
    ({ (streamGenerateAllRun env fmt
          (streamScanRun env fmt { st with busy := true, scanAllowed := true }).1).1 with
        busy := false, scanAllowed := false },
      OutMsg.busyMsg true ::
        (streamScanRun env fmt { st with busy := true, scanAllowed := true }).2 ++
        (streamGenerateAllRun env fmt
          (streamScanRun env fmt { st with busy := true, scanAllowed := true }).1).2 ++
        [OutMsg.busyMsg false])

/-- `figma.ui.onmessage` (the claim-relevant cases; `'ui-export'` only asks
the UI to save a file and is out of the modelled scope). -/
def handleMsg (env : HostEnv) (st : PluginState) (msg : UIMsg) :
    PluginState × List OutMsg :=
  match msg with
  | UIMsg.uiReady =>
    (st, sendSelectionInfo env st ++ [OutMsg.statusMsg (str "🟢 Backend ready")])
  | UIMsg.uiScan fmtOpt =>
    if st.scanAllowed = false then (st, [])
    else if env.scanThrows then
      ({ st with busy := false },
        [OutMsg.busyMsg true, OutMsg.statusMsg (str "❌ Scan failed"), OutMsg.busyMsg false])
    else
      ({ (streamScanRun env (fmtOpt.getD Fmt.md) { st with busy := true }).1 with
          busy := false },
        OutMsg.busyMsg true ::
          (streamScanRun env (fmtOpt.getD Fmt.md) { st with busy := true }).2 ++
          [OutMsg.busyMsg false])
  | UIMsg.uiGenerateAll fmtOpt =>
    if env.genAllThrows then
      ({ st with busy := false, scanAllowed := false },
        [OutMsg.busyMsg true, OutMsg.statusMsg (str "❌ Generate failed"), OutMsg.busyMsg false])
    else
      ({ (streamGenerateAllRun env ((fmtOpt.or st.exportScanFormat).getD Fmt.md)
            { st with busy := true }).1 with busy := false, scanAllowed := false },
        OutMsg.busyMsg true ::
          (streamGenerateAllRun env ((fmtOpt.or st.exportScanFormat).getD Fmt.md)
            { st with busy := true }).2 ++
          [OutMsg.busyMsg false])
  | UIMsg.uiGenerate fmtOpt =>
    -- `if (__exportScanCache && __exportScanCache.length > 0 && fmtTop)`
    if st.exportScanCache ≠ [] ∧ fmtOpt.isSome then
      match fmtOpt with
      | some fmt => streamGenerateAllRun env fmt st
      | none => (st, [])
    else
      match env.selection with
      | none =>
        (st, [OutMsg.statusMsg (str "⚙️ Generating…"),
              OutMsg.generationResult fmtOpt GenOut.emptyOut,
              OutMsg.statusMsg (str "⚠️ Please select a Component, Instance or Component Set.")])
      | some t =>
        (st, OutMsg.statusMsg (str "⚙️ Generating…") ::
          genResults env t fmtOpt ++ [OutMsg.statusMsg (str "✅ Generated.")])
  | UIMsg.exportMd => exportRun env st Fmt.md (str "❌ Export .md failed.")
  | UIMsg.exportJson => exportRun env st Fmt.json (str "❌ Export .json failed.")
  | UIMsg.copyRequest =>
    match env.selection with
    | none =>
      (st, [OutMsg.statusMsg (str "⚠️ Nothing to copy: no selection."),
            OutMsg.copyPayload [] none])
    | some t =>
      (st, [OutMsg.copyPayload (toMarkdownTarget env.nameEnv t)
              (some (toJSONSummaryTarget env.nameEnv t)),
            OutMsg.statusMsg (str "📋 Copy payload ready.")])

/-! ### Claim C4: per-item fault isolation -/

instance {eps alpha : Type} [DecidableEq eps] [DecidableEq alpha] :
    DecidableEq (Except eps alpha) := fun a b =>
  match a, b with
  | Except.error e, Except.error f =>
    if h : e = f then isTrue (by rw [h]) else isFalse (fun hc => h (by injection hc))
  | Except.error _, Except.ok _ => isFalse (fun hc => Except.noConfusion hc)
  | Except.ok _, Except.error _ => isFalse (fun hc => Except.noConfusion hc)
  | Except.ok x, Except.ok y =>
    if h : x = y then isTrue (by rw [h]) else isFalse (fun hc => h (by injection hc))

/-- The `getD` default used to quantify over positions. -/
def emptySet : ComponentSetModel :=
  { name := [], componentPropertyDefinitions := none, children := [] }

/-- C4: in a batch over N discovered targets where the per-item generation of
exactly one target throws, the aggregate (markdown parts / JSON items)
contains exactly N entries: the failing index holds a failure placeholder
carrying that target's name, and every other index holds that target's full
document, in discovery order — generation continues past the failure. -/
theorem C4_fault_isolation :
    ∀ (sets : List ComponentSetModel) (genJ : ComponentSetModel → Except Unit JsonSummary)
      (genM : ComponentSetModel → Except Unit Str) (i : Nat) (hi : i < sets.length),
      genJ sets[i] = Except.error () →
      (∀ j, j < sets.length → j ≠ i → genJ (sets.getD j emptySet) ≠ Except.error ()) →
      genM sets[i] = Except.error () →
      (∀ j, j < sets.length → j ≠ i → genM (sets.getD j emptySet) ≠ Except.error ()) →
      (streamGenerateAllJsonItems genJ sets).length = sets.length
        ∧ (streamGenerateAllMdParts genM sets).length = sets.length
        ∧ (streamGenerateAllJsonItems genJ sets)[i]? =
            some (JsonItem.errItem (sets[i]).name jsonFailureMsg)
        ∧ (streamGenerateAllMdParts genM sets)[i]? =
            some (mdFailurePlaceholder (sets[i]).name)
        ∧ (∀ j, j < sets.length → j ≠ i →
            ∃ d, genJ (sets.getD j emptySet) = Except.ok d
              ∧ (streamGenerateAllJsonItems genJ sets)[j]? = some (JsonItem.docItem d))
        ∧ (∀ j, j < sets.length → j ≠ i →
            ∃ m, genM (sets.getD j emptySet) = Except.ok m
              ∧ (streamGenerateAllMdParts genM sets)[j]? = some m) := by
  intro sets genJ genM i hi hJi hJok hMi hMok
  have hgetD : ∀ (j : Nat) (hj : j < sets.length), sets.getD j emptySet = sets[j] :=
    fun _ hj => List.getD_eq_getElem sets _ hj
  refine ⟨by simp [streamGenerateAllJsonItems], by simp [streamGenerateAllMdParts],
    ?_, ?_, ?_, ?_⟩
  · unfold streamGenerateAllJsonItems
    rw [List.getElem?_map, List.getElem?_eq_getElem hi]
    simp [hJi]
  · unfold streamGenerateAllMdParts
    rw [List.getElem?_map, List.getElem?_eq_getElem hi]
    simp [hMi]
  · intro j hj hne
    rcases hok : genJ sets[j] with e | d
    · cases e
      have hJok' := hJok j hj hne
      rw [hgetD j hj] at hJok'
      exact absurd hok hJok'
    · refine ⟨d, by rw [hgetD j hj]; exact hok, ?_⟩
      unfold streamGenerateAllJsonItems
      rw [List.getElem?_map, List.getElem?_eq_getElem hj]
      simp [hok]
  · intro j hj hne
    rcases hok : genM sets[j] with e | m
    · cases e
      have hMok' := hMok j hj hne
      rw [hgetD j hj] at hMok'
      exact absurd hok hMok'
    · refine ⟨m, by rw [hgetD j hj]; exact hok, ?_⟩
      unfold streamGenerateAllMdParts
      rw [List.getElem?_map, List.getElem?_eq_getElem hj]
      simp [hok]

def setA : ComponentSetModel :=
  { name := str "A", componentPropertyDefinitions := some [], children := [] }

def setB : ComponentSetModel :=
  { name := str "B", componentPropertyDefinitions := some [], children := [] }

def c4genJ : ComponentSetModel → Except Unit JsonSummary := fun s =>
  if s.name = str "B" then Except.error ()
  else Except.ok (toJSONSummaryTarget envNone (Target.setT s))

def c4genM : ComponentSetModel → Except Unit Str := fun s =>
  if s.name = str "B" then Except.error ()
  else Except.ok (toMarkdownTarget envNone (Target.setT s))

theorem C4_fault_isolation_witness :
    (c4genJ ([setA, setB])[1] = Except.error ()
        ∧ c4genM ([setA, setB])[1] = Except.error ())
      ∧ (streamGenerateAllJsonItems c4genJ [setA, setB]).length = 2
      ∧ (streamGenerateAllJsonItems c4genJ [setA, setB])[1]? =
          some (JsonItem.errItem (str "B") jsonFailureMsg)
      ∧ (∀ j, j < 2 → j ≠ 1 →
          ∃ d, c4genJ (([setA, setB]).getD j emptySet) = Except.ok d
            ∧ (streamGenerateAllJsonItems c4genJ [setA, setB])[j]? =
                some (JsonItem.docItem d)) := by
  have h := C4_fault_isolation [setA, setB] c4genJ c4genM 1 (by decide)
    (by decide) (by decide) (by decide) (by decide)
  exact ⟨⟨by decide, by decide⟩, h.1, h.2.2.1, h.2.2.2.2.1⟩

/-! ### Claim C8: generate and leftover scan state -/

def compBtn : ComponentModel :=
  { name := str "Btn", componentPropertyDefinitions := some [(str "P", rawBool)] }

def c8env : HostEnv :=
  { selection := some (Target.componentT compBtn), workspaceSets := [setA]
    nameEnv := envNone, rootName := str "Doc", scanThrows := false, genAllThrows := false }

def c8st : PluginState :=
  { exportScanCache := [setA], exportScanFormat := none, busy := false, scanAllowed := false }

def isGenerationResult : OutMsg → Bool
  | OutMsg.generationResult _ _ => true
  | _ => false

/-- C8 (counterexample): with a non-empty `__exportScanCache` left over from a
previous export request, a `ui-generate` request with a format does **not**
produce a document for the current selection — it re-runs batch generation
from the cache and posts no `generation-result` at all. -/
theorem C8_generate_selection_cex :
    OutMsg.generationResult (some Fmt.md)
        (GenOut.mdOut (toMarkdownTarget c8env.nameEnv (Target.componentT compBtn)))
      ∉ (handleMsg c8env c8st (UIMsg.uiGenerate (some Fmt.md))).2
    ∧ ((handleMsg c8env c8st (UIMsg.uiGenerate (some Fmt.md))).2.all
        (fun m => !isGenerationResult m)) = true
    ∧ c8env.selection = some (Target.componentT compBtn)
    ∧ c8st.exportScanCache ≠ [] := by
  refine ⟨by decide, by decide, by decide, by decide⟩

/-- C8 (amended): a generate request produces its output for the target
resolved from the current selection whenever the scan cache is empty — the
posted document is exactly the rendering of the resolved target and the
request leaves the state unchanged.  When a previous export left a non-empty
scan cache and the request carries a format, the handler instead re-runs
batch generation over the cached sets. -/
theorem C8_generate_uses_selection :
    ∀ (env : HostEnv) (st : PluginState) (t : Target) (fmt : Fmt),
      st.exportScanCache = [] → env.selection = some t →
      (handleMsg env st (UIMsg.uiGenerate (some fmt))).1 = st
      ∧ OutMsg.generationResult (some fmt)
          (match fmt with
            | Fmt.md => GenOut.mdOut (toMarkdownTarget env.nameEnv t)
            | Fmt.json => GenOut.jsonOut (toJSONSummaryTarget env.nameEnv t))
        ∈ (handleMsg env st (UIMsg.uiGenerate (some fmt))).2 := by
  intro env st t fmt hcache hsel
  simp only [handleMsg]
  rw [if_neg (by simp [hcache])]
  simp only [hsel]
  cases fmt
  · exact ⟨by trivial, by simp [genResults]⟩
  · exact ⟨by trivial, by simp [genResults]⟩

def c8stEmpty : PluginState :=
  { exportScanCache := [], exportScanFormat := none, busy := false, scanAllowed := false }

theorem C8_generate_uses_selection_witness :
    (c8stEmpty.exportScanCache = []
        ∧ c8env.selection = some (Target.componentT compBtn))
      ∧ (handleMsg c8env c8stEmpty (UIMsg.uiGenerate (some Fmt.md))).1 = c8stEmpty
      ∧ OutMsg.generationResult (some Fmt.md)
          (GenOut.mdOut (toMarkdownTarget c8env.nameEnv (Target.componentT compBtn)))
        ∈ (handleMsg c8env c8stEmpty (UIMsg.uiGenerate (some Fmt.md))).2 :=
  ⟨⟨rfl, rfl⟩,
    C8_generate_uses_selection c8env c8stEmpty (Target.componentT compBtn) Fmt.md rfl rfl⟩

/-! ### Claim C9: the one-shot scan permission flag -/

/-- C9: a `ui-scan` request arriving while `__scanAllowed` is clear does
nothing (no scan, no state change, no output); an export-style request clears
`__scanAllowed` by the time its handling ends, on both the success path and
either failure path; and an export-style request does run the workspace scan
(it posts `scan-start`) even though the flag was clear beforehand. -/
theorem C9_scan_gating :
    ∀ (env : HostEnv) (st : PluginState) (fmtOpt : Option Fmt),
      (st.scanAllowed = false → handleMsg env st (UIMsg.uiScan fmtOpt) = (st, []))
      ∧ (handleMsg env st UIMsg.exportMd).1.scanAllowed = false
      ∧ (handleMsg env st UIMsg.exportJson).1.scanAllowed = false
      ∧ (env.scanThrows = false →
          OutMsg.scanStart env.workspaceSets.length ∈ (handleMsg env st UIMsg.exportMd).2) := by
  intro env st fmtOpt
  refine ⟨?_, ?_, ?_, ?_⟩
  · intro h
    simp only [handleMsg]
    rw [if_pos h]
  · simp only [handleMsg, exportRun]
    by_cases h1 : env.scanThrows
    · rw [if_pos h1]
    · rw [if_neg h1]
      by_cases h2 : env.genAllThrows
      · rw [if_pos h2]
      · rw [if_neg h2]
  · simp only [handleMsg, exportRun]
    by_cases h1 : env.scanThrows
    · rw [if_pos h1]
    · rw [if_neg h1]
      by_cases h2 : env.genAllThrows
      · rw [if_pos h2]
      · rw [if_neg h2]
  · intro hs
    simp only [handleMsg, exportRun]
    rw [if_neg (by simp [hs])]
    by_cases h2 : env.genAllThrows
    · rw [if_pos h2]
      exact List.mem_cons_of_mem _ (List.mem_append_left _ (List.mem_cons_self _ _))
    · rw [if_neg h2]
      exact List.mem_cons_of_mem _ (List.mem_append_left _
        (List.mem_append_left _ (List.mem_cons_self _ _)))

def c9env : HostEnv :=
  { selection := none, workspaceSets := [setA], nameEnv := envNone
    rootName := str "Doc", scanThrows := false, genAllThrows := false }

theorem C9_scan_gating_witness :
    (c8st.scanAllowed = false ∧ c9env.scanThrows = false)
      ∧ handleMsg c9env c8st (UIMsg.uiScan (some Fmt.md)) = (c8st, [])
      ∧ (handleMsg c9env c8st UIMsg.exportMd).1.scanAllowed = false
      ∧ OutMsg.scanStart c9env.workspaceSets.length
          ∈ (handleMsg c9env c8st UIMsg.exportMd).2 := by
  have h := C9_scan_gating c9env c8st (some Fmt.md)
  exact ⟨⟨rfl, rfl⟩, h.1 rfl, h.2.1, h.2.2.2 rfl⟩

/-! ### Claim C10: loose single components report a member count of 1 -/

/-- C10: for a loose single component (not a member of a grouped set), the
textual document contains the overview line `- Variants: 1`, the structured
document reports `variantsCount = 1`, and the selection-info event reports a
member count of exactly 1 — never 0. -/
theorem C10_single_component_count :
    ∀ (env : NameEnv) (henv : HostEnv) (st : PluginState) (c : ComponentModel),
      (str "- Variants: 1" ∈ mdLines env (Target.componentT c))
      ∧ (toJSONSummaryTarget env (Target.componentT c)).variantsCount = 1
      ∧ (henv.selection = some (Target.componentT c) → st.busy = false →
          OutMsg.selectionInfo c.name 1 (collectPropsFromComponent c).order.length
            ∈ sendSelectionInfo henv st) := by
  intro env henv st c
  refine ⟨?_, rfl, ?_⟩
  · have h1 : str "- Variants: " ++ natToStr (targetVariantCount (Target.componentT c)) =
        str "- Variants: 1" := by
      show str "- Variants: " ++ natToStr 1 = str "- Variants: 1"
      decide
    rw [← h1]
    unfold mdLines
    exact List.mem_append_left _ (List.mem_cons_of_mem _ (List.mem_cons_of_mem _
      (List.mem_cons_of_mem _ (List.mem_cons_self _ _))))
  · intro hsel hbusy
    unfold sendSelectionInfo
    rw [hbusy]
    simp only [Bool.false_eq_true, if_false]
    simp only [hsel]
    exact List.mem_cons_self _ _

theorem C10_single_component_count_witness :
    (c8env.selection = some (Target.componentT compBtn) ∧ c8st.busy = false)
      ∧ (str "- Variants: 1" ∈ mdLines envNone (Target.componentT compBtn))
      ∧ (toJSONSummaryTarget envNone (Target.componentT compBtn)).variantsCount = 1
      ∧ OutMsg.selectionInfo compBtn.name 1 (collectPropsFromComponent compBtn).order.length
          ∈ sendSelectionInfo c8env c8st := by
  have h := C10_single_component_count envNone c8env c8st compBtn
  exact ⟨⟨rfl, rfl⟩, h.1, h.2.1, h.2.2 rfl rfl⟩

/-- A closed instantiation of the amended pretty-projection shape. -/
theorem C7_pretty_projection_witness :
    prettyKindClean envNone (str "P") (buildDefSet (str "P") rawSwapNoDefault) :=
  C7_pretty_projection envNone (str "P") (buildDefSet (str "P") rawSwapNoDefault)

end ExportMeta
